import Mathlib

/-! Character decoders of `go-foxpro-dbf` (`decoder.go`).

A shallow embedding of the four `Decoder` implementations of package `dbf`
(`Win1250Decoder`, `KamenickyDecoder`, `UTF8Decoder`, `UTF8Validator`) together
with the library routines they call:

* `unicode/utf8`: `Valid`, `EncodeRune`, `DecodeRuneInString` (width only);
* `strings`: `ReplaceAll`;
* `golang.org/x/text/encoding/charmap`: the table driven `charmapDecoder.Transform`
  and the two code pages `Windows1250` and `CodePage437`;
* `golang.org/x/text/transform` and `io/ioutil`: `NewReader`, `Reader.Read`, `ReadAll`.

Conventions.  A Go `byte` is a `Fin 256`; a `[]byte` and a `string` are both a
`List Byte` (the conversions `string(data)` and `[]byte(str)` keep the bytes), the
`nil` slice is `[]`.  A Go result `([]byte, error)` is a pair
`List Byte × Option GoError`, where `none` is the `nil` error.
-/

namespace Dbf

/-- A Go `byte`. -/
abbrev Byte := Fin 256

/-- The `error` values that can reach a caller of `decoder.go`.  The last
constructor is not a Go error: it marks the iteration bound of `ioutil.ReadAll`
below being hit, and is shown never to be returned. -/
inductive GoError
  | ErrInvalidUTF8
  | EOF
  | ErrShortDst
  | ErrShortSrc
  | errInconsistentByteCount
  | iterationBound
  deriving DecidableEq, Repr

/-- The package level variable `ErrInvalidUTF8 = errors.New("invalid UTF-8 data")`. -/
def ErrInvalidUTF8 : GoError := GoError.ErrInvalidUTF8

/-! ## `unicode/utf8` -/

namespace utf8

def RuneSelf : Nat := 0x80
def RuneError : Nat := 0xFFFD
def MaxRune : Nat := 0x10FFFF
def surrogateMin : Nat := 0xD800
def surrogateMax : Nat := 0xDFFF
def rune1Max : Nat := 0x7F
def rune2Max : Nat := 0x7FF
def rune3Max : Nat := 0xFFFF
def locb : Nat := 0x80
def hicb : Nat := 0xBF

def xx : Nat := 0xF1
def as : Nat := 0xF0
def s1 : Nat := 0x02
def s2 : Nat := 0x13
def s3 : Nat := 0x03
def s4 : Nat := 0x23
def s5 : Nat := 0x34
def s6 : Nat := 0x04
def s7 : Nat := 0x44

/-- The table `first`: information about the first byte of an encoding. -/
def first (b : Byte) : Nat :=
  if b.val < 0x80 then as
  else if b.val < 0xC2 then xx
  else if b.val < 0xE0 then s1
  else if b.val = 0xE0 then s2
  else if b.val < 0xED then s3
  else if b.val = 0xED then s4
  else if b.val < 0xF0 then s3
  else if b.val = 0xF0 then s5
  else if b.val < 0xF4 then s6
  else if b.val = 0xF4 then s7
  else xx

/-- The table `acceptRanges`: the range `(lo, hi)` allowed for the second byte. -/
def acceptRanges (i : Nat) : Nat × Nat :=
  match i with
  | 0 => (locb, hicb)
  | 1 => (0xA0, hicb)
  | 2 => (locb, 0x9F)
  | 3 => (0x90, hicb)
  | 4 => (locb, 0x8F)
  | _ => (0, 0)

/-- The loop of `utf8.Valid` as a scan over the bytes from index `i` on.  With
`pending = 0` the next byte `pi` starts an encoding: an ASCII byte is stepped over,
otherwise `x = first[pi]` gives `size = x & 7` (here `x % 8`) and the range
`accept = acceptRanges[x >> 4]` (here `x / 16`) for the next byte.  With `pending > 0`
that many bytes of the current encoding are still to be checked, the next one against
`lo` and `hi`, those after it against `locb` and `hicb`.  An encoding cut short by
the end of the input (`i+size > n` in Go) is rejected when the input ends. -/
def validFrom : Nat → Nat → Nat → List Byte → Bool
  | 0, _, _, [] => true
  | _ + 1, _, _, [] => false
  | 0, _, _, pi :: rest =>
    if pi.val < RuneSelf then validFrom 0 0 0 rest
    else
      let x := first pi
      if x = xx then false
      else
        let size := x % 8
        let accept := acceptRanges (x / 16)
        validFrom (size - 1) accept.1 accept.2 rest
  | k + 1, lo, hi, c :: rest =>
    if c.val < lo ∨ hi < c.val then false
    else validFrom k locb hicb rest

/-- The function `utf8.Valid`.  (The eight-bytes-at-a-time skip of ASCII at the start
of the Go function only advances over bytes the loop advances over too.) -/
def Valid (p : List Byte) : Bool := validFrom 0 0 0 p

/-- The width returned by `utf8.DecodeRuneInString` on a non-empty string
(`1` for an invalid or short encoding), `0` on the empty string. -/
def DecodeRuneWidth : List Byte → Nat
  | [] => 0
  | s0 :: rest =>
    let x := first s0
    if x ≥ as then 1
    else
      let sz := x % 8
      let accept := acceptRanges (x / 16)
      if rest.length + 1 < sz then 1
      else
        match rest with
        | [] => 1
        | c1 :: r1 =>
          if c1.val < accept.1 ∨ accept.2 < c1.val then 1
          else if sz ≤ 2 then 2
          else
            match r1 with
            | [] => 1
            | c2 :: r2 =>
              if c2.val < locb ∨ hicb < c2.val then 1
              else if sz ≤ 3 then 3
              else
                match r2 with
                | [] => 1
                | c3 :: _ =>
                  if c3.val < locb ∨ hicb < c3.val then 1 else 4

/-- The bytes written by `utf8.EncodeRune` for the rune `r` (as `uint32`).  A shift
`r >> k` is `r / 2 ^ k`, `x & maskx` is `x % 64`, a conversion `byte(x)` is
`Fin.ofNat x`. -/
def EncodeRune (r : Nat) : List Byte :=
  if r ≤ rune1Max then [Fin.ofNat r]
  else if r ≤ rune2Max then [Fin.ofNat (0xC0 + r / 64), Fin.ofNat (0x80 + r % 64)]
  else
    let r3 := if r > MaxRune ∨ (surrogateMin ≤ r ∧ r ≤ surrogateMax) then RuneError else r
    if r > MaxRune ∨ (surrogateMin ≤ r ∧ r ≤ surrogateMax) ∨ r ≤ rune3Max then
      [Fin.ofNat (0xE0 + r3 / 4096), Fin.ofNat (0x80 + r3 / 64 % 64), Fin.ofNat (0x80 + r3 % 64)]
    else
      [Fin.ofNat (0xF0 + r / 262144), Fin.ofNat (0x80 + r / 4096 % 64),
        Fin.ofNat (0x80 + r / 64 % 64), Fin.ofNat (0x80 + r % 64)]

end utf8

/-- The bytes of a Go string literal: the UTF-8 encoding of its characters. -/
def goString (s : String) : List Byte :=
  s.data.flatMap (fun c => utf8.EncodeRune c.toNat)

/-! ## `strings` -/

namespace strings

/-- The replacement loop of `strings.Replace` for a non-empty `old` and `n < 0`: the
leftmost occurrence of `old` is found, the bytes before it are copied, `new` is
written, and the search resumes after the occurrence.  The first argument counts the
bytes of a matched occurrence still to be skipped. -/
def replaceScan (old new : List Byte) : Nat → List Byte → List Byte
  | _, [] => []
  | k + 1, _ :: rest => replaceScan old new k rest
  | 0, b :: rest =>
    if old.isPrefixOf (b :: rest) then new ++ replaceScan old new (old.length - 1) rest
    else b :: replaceScan old new 0 rest

/-- The replacement loop of `strings.Replace` for the empty `old`: `new` is written
at the beginning and after each UTF-8 sequence.  The first argument counts the bytes
of the current sequence still to be copied. -/
def replaceEmpty (new : List Byte) : Nat → List Byte → List Byte
  | _, [] => new
  | k + 1, b :: rest => b :: replaceEmpty new k rest
  | 0, b :: rest => new ++ b :: replaceEmpty new (utf8.DecodeRuneWidth (b :: rest) - 1) rest

/-- The function `strings.ReplaceAll(s, old, new)`, that is `Replace(s, old, new, -1)`:
a copy of `s` with all non-overlapping instances of `old` replaced by `new`. -/
def ReplaceAll (s old new : List Byte) : List Byte :=
  if old = new then s
  else if old = [] then replaceEmpty new 0 s
  else replaceScan old new 0 s

end strings

/-! ## `golang.org/x/text/encoding/charmap` -/

namespace charmap

/-- The fields of a `Charmap` that decoding reads: `asciiSuperset` and the table
`decode`, where `decode c` is `decode[c].data[:decode[c].len]`. -/
structure Charmap where
  asciiSuperset : Bool
  decode : Byte → List Byte

/-- Modelled from the spec: the standard 256-entry code-page-437-to-Unicode table
(upper half, bytes 0x80 to 0xFF), the table of `charmap.CodePage437`. -/
def codePage437High : List Nat :=
  [0x00C7, 0x00FC, 0x00E9, 0x00E2, 0x00E4, 0x00E0, 0x00E5, 0x00E7,  -- 0x80
   0x00EA, 0x00EB, 0x00E8, 0x00EF, 0x00EE, 0x00EC, 0x00C4, 0x00C5,  -- 0x88
   0x00C9, 0x00E6, 0x00C6, 0x00F4, 0x00F6, 0x00F2, 0x00FB, 0x00F9,  -- 0x90
   0x00FF, 0x00D6, 0x00DC, 0x00A2, 0x00A3, 0x00A5, 0x20A7, 0x0192,  -- 0x98
   0x00E1, 0x00ED, 0x00F3, 0x00FA, 0x00F1, 0x00D1, 0x00AA, 0x00BA,  -- 0xA0
   0x00BF, 0x2310, 0x00AC, 0x00BD, 0x00BC, 0x00A1, 0x00AB, 0x00BB,  -- 0xA8
   0x2591, 0x2592, 0x2593, 0x2502, 0x2524, 0x2561, 0x2562, 0x2556,  -- 0xB0
   0x2555, 0x2563, 0x2551, 0x2557, 0x255D, 0x255C, 0x255B, 0x2510,  -- 0xB8
   0x2514, 0x2534, 0x252C, 0x251C, 0x2500, 0x253C, 0x255E, 0x255F,  -- 0xC0
   0x255A, 0x2554, 0x2569, 0x2566, 0x2560, 0x2550, 0x256C, 0x2567,  -- 0xC8
   0x2568, 0x2564, 0x2565, 0x2559, 0x2558, 0x2552, 0x2553, 0x256B,  -- 0xD0
   0x256A, 0x2518, 0x250C, 0x2588, 0x2584, 0x258C, 0x2590, 0x2580,  -- 0xD8
   0x03B1, 0x00DF, 0x0393, 0x03C0, 0x03A3, 0x03C3, 0x00B5, 0x03C4,  -- 0xE0
   0x03A6, 0x0398, 0x03A9, 0x03B4, 0x221E, 0x03C6, 0x03B5, 0x2229,  -- 0xE8
   0x2261, 0x00B1, 0x2265, 0x2264, 0x2320, 0x2321, 0x00F7, 0x2248,  -- 0xF0
   0x00B0, 0x2219, 0x00B7, 0x221A, 0x207F, 0x00B2, 0x25A0, 0x00A0]  -- 0xF8

/-- Modelled from the spec: the standard 256-entry Windows-1250-to-Unicode table
(upper half, bytes 0x80 to 0xFF), the table of `charmap.Windows1250`; the five
bytes without an assignment hold U+FFFD. -/
def windows1250High : List Nat :=
  [0x20AC, 0xFFFD, 0x201A, 0xFFFD, 0x201E, 0x2026, 0x2020, 0x2021,  -- 0x80
   0xFFFD, 0x2030, 0x0160, 0x2039, 0x015A, 0x0164, 0x017D, 0x0179,  -- 0x88
   0xFFFD, 0x2018, 0x2019, 0x201C, 0x201D, 0x2022, 0x2013, 0x2014,  -- 0x90
   0xFFFD, 0x2122, 0x0161, 0x203A, 0x015B, 0x0165, 0x017E, 0x017A,  -- 0x98
   0x00A0, 0x02C7, 0x02D8, 0x0141, 0x00A4, 0x0104, 0x00A6, 0x00A7,  -- 0xA0
   0x00A8, 0x00A9, 0x015E, 0x00AB, 0x00AC, 0x00AD, 0x00AE, 0x017B,  -- 0xA8
   0x00B0, 0x00B1, 0x02DB, 0x0142, 0x00B4, 0x00B5, 0x00B6, 0x00B7,  -- 0xB0
   0x00B8, 0x0105, 0x015F, 0x00BB, 0x013D, 0x02DD, 0x013E, 0x017C,  -- 0xB8
   0x0154, 0x00C1, 0x00C2, 0x0102, 0x00C4, 0x0139, 0x0106, 0x00C7,  -- 0xC0
   0x010C, 0x00C9, 0x0118, 0x00CB, 0x011A, 0x00CD, 0x00CE, 0x010E,  -- 0xC8
   0x0110, 0x0143, 0x0147, 0x00D3, 0x00D4, 0x0150, 0x00D6, 0x00D7,  -- 0xD0
   0x0158, 0x016E, 0x00DA, 0x0170, 0x00DC, 0x00DD, 0x0162, 0x00DF,  -- 0xD8
   0x0155, 0x00E1, 0x00E2, 0x0103, 0x00E4, 0x013A, 0x0107, 0x00E7,  -- 0xE0
   0x010D, 0x00E9, 0x0119, 0x00EB, 0x011B, 0x00ED, 0x00EE, 0x010F,  -- 0xE8
   0x0111, 0x0144, 0x0148, 0x00F3, 0x00F4, 0x0151, 0x00F6, 0x00F7,  -- 0xF0
   0x0159, 0x016F, 0x00FA, 0x0171, 0x00FC, 0x00FD, 0x0163, 0x02D9]  -- 0xF8

/-- The Unicode scalar value a 256-entry table with the given upper half assigns to
the byte `c`; the lower half is ASCII. -/
def tableRune (high : List Nat) (c : Byte) : Nat :=
  if c.val < 0x80 then c.val else high.getD (c.val - 0x80) utf8.RuneError

/-- The value `charmap.CodePage437`. -/
def CodePage437 : Charmap :=
  { asciiSuperset := true
    decode := fun c => utf8.EncodeRune (tableRune codePage437High c) }

/-- The value `charmap.Windows1250`. -/
def Windows1250 : Charmap :=
  { asciiSuperset := true
    decode := fun c => utf8.EncodeRune (tableRune windows1250High c) }

/-- The loop of `charmapDecoder.Transform(dst, src, atEOF)` from the source byte `c`
on, with `nDst` bytes of the `dstLen` bytes of `dst` already written.  The result is
the bytes written from here on, the number of source bytes consumed from here on,
and the error. -/
def transformFrom (m : Charmap) (dstLen : Nat) : Nat → List Byte → List Byte × Nat × Option GoError
  | _, [] => ([], 0, none)
  | nDst, c :: rest =>
    if m.asciiSuperset ∧ c.val < utf8.RuneSelf then
      if nDst ≥ dstLen then ([], 0, some GoError.ErrShortDst)
      else
        let res := transformFrom m dstLen (nDst + 1) rest
        (c :: res.1, res.2.1 + 1, res.2.2)
    else
      let d := m.decode c
      let n := d.length
      if nDst + n > dstLen then ([], 0, some GoError.ErrShortDst)
      else
        let res := transformFrom m dstLen (nDst + n) rest
        (d ++ res.1, res.2.1 + 1, res.2.2)

/-- The method `charmapDecoder.Transform`: `(dst[:nDst], nSrc, err)`. -/
def Transform (m : Charmap) (dstLen : Nat) (src : List Byte) (_atEOF : Bool) :
    List Byte × Nat × Option GoError :=
  transformFrom m dstLen 0 src

end charmap

/-! ## `golang.org/x/text/transform` and `io/ioutil` -/

namespace transform

def defaultBufSize : Nat := 4096

/-- The state of a `transform.Reader` over a `bytes.Reader`: `r` is the unread
part of the wrapped reader, `dst` is `r.dst[r.dst0:r.dst1]` and `src` is
`r.src[r.src0:r.src1]`; both buffers have `defaultBufSize` bytes. -/
structure Reader where
  r : List Byte
  t : charmap.Charmap
  err : Option GoError
  dst : List Byte
  src : List Byte
  transformComplete : Bool

/-- The constructor `transform.NewReader(bytes.NewReader(r), t)`. -/
def NewReader (r : List Byte) (t : charmap.Charmap) : Reader :=
  { r := r, t := t, err := none, dst := [], src := [], transformComplete := false }

/-- How one pass through the body of the `for` loop of `Reader.Read` ends: `Read`
returns `(n, err)` with the `n` bytes copied out, or the loop goes round again. -/
inductive Pass
  | ret (out : List Byte) (err : Option GoError) (r : Reader)
  | again (r : Reader)

/-- The tail of the loop body of `Reader.Read`: the untransformed source bytes are
moved to the start of the buffer and `r.r.Read(r.src[r.src1:])` runs; a
`bytes.Reader` at its end gives `(0, io.EOF)`, otherwise it copies what fits. -/
def Reader.fill (r : Reader) : Pass :=
  if r.r = [] then Pass.again { r with err := some GoError.EOF }
  else
    let room := defaultBufSize - r.src.length
    Pass.again { r with src := r.src ++ r.r.take room, r := r.r.drop room, err := none }

/-- One pass through the body of the `for` loop of `Reader.Read(p)`, for a `p` that
holds the transformed bytes waiting in `dst`. -/
def Reader.pass (r : Reader) : Pass :=
  if r.dst ≠ [] then
    if r.transformComplete then Pass.ret r.dst r.err { r with dst := [] }
    else Pass.ret r.dst none { r with dst := [] }
  else if r.transformComplete then Pass.ret [] r.err r
  else if r.src ≠ [] ∨ r.err ≠ none then
    let res := charmap.Transform r.t defaultBufSize r.src (r.err == some GoError.EOF)
    let n := res.2.1
    let err := res.2.2
    let r1 := { r with dst := res.1, src := r.src.drop n }
    if err = none then
      let r2 := if r1.src ≠ [] then { r1 with err := some GoError.errInconsistentByteCount } else r1
      Pass.again { r2 with transformComplete := decide (r2.err ≠ none) }
    else if err = some GoError.ErrShortDst ∧ (r1.dst ≠ [] ∨ n ≠ 0) then Pass.again r1
    else if err = some GoError.ErrShortSrc ∧ r1.src.length ≠ defaultBufSize ∧ r1.err = none then
      Reader.fill r1
    else
      Pass.again { r1 with
        transformComplete := true
        err := if r1.err = none ∨ r1.err = some GoError.EOF then err else r1.err }
  else Reader.fill r

/-- The calls of `Read` made by `ReadAll`, as passes through the loop body of `Read`:
a `Read` that returns a `nil` error is followed by another `Read`, the first
non-`nil` error ends the reading.  The bound on the number of passes is the first
argument. -/
def readLoop : Nat → Reader → List Byte × Option GoError
  | 0, _ => ([], some GoError.iterationBound)
  | fuel + 1, r =>
    match r.pass with
    | Pass.again r1 => readLoop fuel r1
    | Pass.ret out none r1 =>
      let res := readLoop fuel r1
      (out ++ res.1, res.2)
    | Pass.ret out (some e) _ => (out, some e)

end transform

namespace ioutil

/-- The function `ioutil.ReadAll(r)` on a `transform.Reader`: everything read until
an error, where `io.EOF` is reported as `nil`.  Four passes per unread byte and five
more are more than the reader needs. -/
def ReadAll (r : transform.Reader) : List Byte × Option GoError :=
  let res := transform.readLoop (4 * (r.r.length + r.src.length) + 5) r
  (res.1, if res.2 = some GoError.EOF then none else res.2)

end ioutil

/-! ## `decoder.go` -/

/-- The method `(*Win1250Decoder).Decode`. -/
def Win1250Decoder.Decode (inp : List Byte) : List Byte × Option GoError :=
  if utf8.Valid inp then (inp, none)
  else
    let r := transform.NewReader inp charmap.Windows1250
    let res := ioutil.ReadAll r
    let data := res.1
    let err := res.2
    if err ≠ none then ([], err)
    else (data, none)

/-- The table literal of `(*KamenickyDecoder).Decode`: the pairs `{v[0], v[1]}` in the
order of the source. -/
def KamenickyDecoder.table : List (String × String) :=
  [("ě", "ê"),
   ("ů", "û"),
   ("ý", "ÿ"),
   ("č", "ç"),
   ("ď", "â"),
   ("ĺ", "ì"),
   ("ľ", "î"),
   ("ň", "ñ"),
   ("ŕ", "¬"),
   ("ř", "⌐"),
   ("š", "¿"),
   ("ť", "ƒ"),
   ("ž", "æ"),
   ("Á", "Å"),
   ("Ě", "ë"),
   ("Í", "ï"),
   ("Ó", "ò"),
   ("Ô", "º"),
   ("Ú", "ù"),
   ("Ů", "ª"),
   ("Ý", "¥"),
   ("Č", "Ç"),
   ("Ď", "à"),
   ("Ĺ", "è"),
   ("Ľ", "£"),
   ("Ň", "Ñ"),
   ("Ŕ", "½"),
   ("Ř", "₧"),
   ("Š", "¢"),
   ("Ť", "å"),
   ("Ž", "Æ")]

/-- The `for ... range` loop of `(*KamenickyDecoder).Decode`:
`str = strings.ReplaceAll(str, v[1], v[0])` for each entry in order. -/
def KamenickyDecoder.substitute (table : List (String × String)) (str : List Byte) : List Byte :=
  table.foldl (fun str v => strings.ReplaceAll str (goString v.2) (goString v.1)) str

/-- The method `(*KamenickyDecoder).Decode`. -/
def KamenickyDecoder.Decode (inp : List Byte) : List Byte × Option GoError :=
  if utf8.Valid inp then (inp, none)
  else
    let r := transform.NewReader inp charmap.CodePage437
    let res := ioutil.ReadAll r
    let data := res.1
    let err := res.2
    if err ≠ none then ([], err)
    else
      let str := data
      let str := KamenickyDecoder.substitute KamenickyDecoder.table str
      (str, none)

/-- The method `(*UTF8Decoder).Decode`. -/
def UTF8Decoder.Decode (inp : List Byte) : List Byte × Option GoError :=
  (inp, none)

/-- The method `(*UTF8Validator).Decode`. -/
def UTF8Validator.Decode (inp : List Byte) : List Byte × Option GoError :=
  if utf8.Valid inp then (inp, none)
  else ([], some ErrInvalidUTF8)

/-! ## Specification vocabulary -/

open charmap transform

/-- The bytes `charmapDecoder.Transform` writes for the source byte `c`. -/
def charmap.Charmap.emit (m : Charmap) (c : Byte) : List Byte :=
  if m.asciiSuperset ∧ c.val < utf8.RuneSelf then [c] else m.decode c

/-- The invariant of the reader while `ReadAll` runs. -/
def transform.Reader.Inv (r : Reader) : Prop :=
  (r.err = none ∨ (r.err = some GoError.EOF ∧ r.r = [])) ∧
  (r.transformComplete = true → r.err = some GoError.EOF ∧ r.src = [])

/-- The number of passes the reader still needs, from above. -/
def transform.Reader.measure (r : Reader) : Nat :=
  4 * r.r.length + 2 * r.src.length + (if r.dst = [] then 0 else 1) +
    (if r.err = none then 2 else 0) + (if r.transformComplete then 0 else 2)

/-- What `ReadAll` has still to deliver from the reader. -/
def transform.Reader.pending (r : Reader) : List Byte :=
  r.dst ++ (r.src ++ r.r).flatMap r.t.emit

/-- The byte `v` is a continuation byte (`locb ≤ v ≤ hicb`). -/
def utf8.isCont (v : Byte) : Bool := decide (utf8.locb ≤ v.val) && decide (v.val ≤ utf8.hicb)

/-- The length of an encoding that starts with the byte `b`, from `first`. -/
def utf8.lenOf (b : Byte) : Nat := if b.val < utf8.RuneSelf then 1 else utf8.first b % 8

/-- The list `c` is the UTF-8 encoding of exactly one code point, by the criteria of
`utf8.Valid`. -/
def utf8.isRune : List Byte → Bool
  | [] => false
  | b :: t =>
    if b.val < utf8.RuneSelf then t.isEmpty
    else
      decide (utf8.first b ≠ utf8.xx) && decide (t.length + 1 = utf8.first b % 8) &&
      match t with
      | [] => false
      | c1 :: t1 =>
        decide ((utf8.acceptRanges (utf8.first b / 16)).1 ≤ c1.val) &&
        decide (c1.val ≤ (utf8.acceptRanges (utf8.first b / 16)).2) &&
        t1.all utf8.isCont

/-- One substitution applied to one character. -/
def substChar (old new c : List Byte) : List Byte := if c = old then new else c

/-- The code-page-437 character of the byte `b`, in UTF-8. -/
def cp437Char (b : Byte) : List Byte :=
  utf8.EncodeRune (charmap.tableRune charmap.codePage437High b)

/-- The Windows-1250 table character of the byte `b`, in UTF-8. -/
def win1250Char (b : Byte) : List Byte :=
  utf8.EncodeRune (charmap.tableRune charmap.windows1250High b)

/-- The character `K(b)`: the target of the first table entry whose source is the
code-page-437 character of `b`, and that character itself when there is none. -/
def kamenickyChar (b : Byte) : List Byte :=
  match KamenickyDecoder.table.find? (fun v => goString v.2 == cp437Char b) with
  | some v => goString v.1
  | none => cp437Char b

/-- All substitutions of a table applied in order to one character. -/
def substAll (table : List (String × String)) (c : List Byte) : List Byte :=
  table.foldl (fun c v => substChar (goString v.2) (goString v.1) c) c

/-- The characters of a string the way a Go `for range` loop steps over it: each step
takes the bytes `utf8.DecodeRuneInString` reports as the width of the next character.
The first argument bounds the number of steps. -/
def utf8.runesFrom : Nat → List Byte → List (List Byte)
  | 0, _ => []
  | fuel + 1, s =>
    if s = [] then []
    else s.take (utf8.DecodeRuneWidth s) :: utf8.runesFrom fuel (s.drop (utf8.DecodeRuneWidth s))

/-- The characters of a string; a string has at most as many characters as bytes. -/
def utf8.runes (s : List Byte) : List (List Byte) := utf8.runesFrom s.length s

/-- The function `utf8.RuneCount`. -/
def utf8.RuneCount (s : List Byte) : Nat := (utf8.runes s).length

/-- The single pass on one character, in the words of the specification: a source
becomes its target, every other character is kept. -/
def singlePassChar (table : List (String × String)) (c : List Byte) : List Byte :=
  match table.find? (fun v => goString v.2 == c) with
  | some v => goString v.1
  | none => c

/-- The single pass over a string, in the words of the specification: each character
of `s` is mapped through the table once. -/
def singlePass (table : List (String × String)) (s : List Byte) : List Byte :=
  ((utf8.runes s).map (singlePassChar table)).flatten

/-- The code point of a string of one character (`0` for the empty string). -/
def runeOf (s : String) : Nat := (s.data.map Char.toNat).headD 0

/-! ## The transform reader delivers the per-byte transcoding -/

theorem transformFrom_spec (m : Charmap) (dstLen : Nat) (src : List Byte) :
    ∀ nDst : Nat,
      (transformFrom m dstLen nDst src).1
          = ((src.take (transformFrom m dstLen nDst src).2.1).flatMap m.emit) ∧
      (((transformFrom m dstLen nDst src).2.2 = none ∧
          (transformFrom m dstLen nDst src).2.1 = src.length) ∨
        ((transformFrom m dstLen nDst src).2.2 = some GoError.ErrShortDst ∧
          (transformFrom m dstLen nDst src).2.1 < src.length)) := by
  induction src with
  | nil => intro nDst; simp [transformFrom]
  | cons c rest ih =>
    intro nDst
    by_cases hc : m.asciiSuperset = true ∧ c.val < utf8.RuneSelf
    · by_cases hd : nDst ≥ dstLen
      · simp [transformFrom, hc, hd]
      · have h := ih (nDst + 1)
        simp only [transformFrom, hc, hd, and_self, if_true, if_false, List.take_succ_cons,
          List.flatMap_cons, Charmap.emit, List.length_cons]
        refine ⟨by rw [h.1]; simp [Charmap.emit], ?_⟩
        rcases h.2 with h2 | h2
        · left; exact ⟨h2.1, by omega⟩
        · right; exact ⟨h2.1, by omega⟩
    · by_cases hd : nDst + (m.decode c).length > dstLen
      · simp [transformFrom, hc, hd]
      · have h := ih (nDst + (m.decode c).length)
        simp only [transformFrom, hc, hd, if_false, List.take_succ_cons,
          List.flatMap_cons, Charmap.emit, List.length_cons]
        refine ⟨by rw [h.1], ?_⟩
        rcases h.2 with h2 | h2
        · left; exact ⟨h2.1, by omega⟩
        · right; exact ⟨h2.1, by omega⟩

theorem transformFrom_progress (m : Charmap) (dstLen nDst : Nat) (c : Byte) (rest : List Byte)
    (h : nDst + (m.emit c).length ≤ dstLen) :
    0 < (transformFrom m dstLen nDst (c :: rest)).2.1 := by
  by_cases hc : m.asciiSuperset = true ∧ c.val < utf8.RuneSelf
  · have hd : ¬ nDst ≥ dstLen := by
      simp [Charmap.emit, hc] at h; omega
    simp [transformFrom, hc, hd]
  · have hd : ¬ nDst + (m.decode c).length > dstLen := by
      simp only [Charmap.emit, hc, if_false] at h; omega
    simp [transformFrom, hc, hd]

theorem pass_spec (r : Reader) (hinv : r.Inv)
    (hlen : ∀ c, (r.t.emit c).length ≤ defaultBufSize) :
    match r.pass with
    | Pass.again r1 =>
        r1.Inv ∧ r1.t = r.t ∧ r1.measure < r.measure ∧ r1.pending = r.pending
    | Pass.ret out none r1 =>
        r1.Inv ∧ r1.t = r.t ∧ r1.measure < r.measure ∧ out ++ r1.pending = r.pending
    | Pass.ret out (some e) _ => e = GoError.EOF ∧ out = r.pending := by
  obtain ⟨rr, t, err, dst, src, tc⟩ := r
  obtain ⟨h1, h2⟩ := hinv
  simp only at h1 h2 hlen
  by_cases hdst : dst = []
  · subst hdst
    by_cases htc : tc = true
    · subst htc
      obtain ⟨he, hs⟩ := h2 rfl
      subst he; subst hs
      have hr : rr = [] := by simpa using h1
      subst hr
      simp [Reader.pass, Reader.pending]
    · have htc2 : tc = false := by simpa using htc
      subst htc2
      by_cases hgo : src ≠ [] ∨ err ≠ none
      · have hT := transformFrom_spec t defaultBufSize src 0
        have hP := transformFrom_progress t defaultBufSize 0
        generalize hres : transformFrom t defaultBufSize 0 src = res at hT hP
        obtain ⟨out, n, e⟩ := res
        simp only at hT
        obtain ⟨hout, hcase⟩ := hT
        rcases hcase with ⟨he, hn⟩ | ⟨he, hn⟩
        · subst he; subst hn
          have hdrop : List.drop src.length src = [] := by simp
          have hout2 : out = src.flatMap t.emit := by simpa using hout
          by_cases hsrc : src = []
          · subst hsrc
            have herr : err ≠ none := by simpa using hgo
            have herr2 : err = some GoError.EOF ∧ rr = [] := by
              rcases h1 with h | h
              · exact absurd h herr
              · exact h
            obtain ⟨he, hr⟩ := herr2
            subst he; subst hr
            simp [Reader.pass, charmap.Transform, hres, Reader.Inv, Reader.measure,
              Reader.pending, hout2]
          · have hpos : 0 < src.length := List.length_pos.mpr hsrc
            simp only [Reader.pass, charmap.Transform, hres, hdrop, Reader.Inv, Reader.measure,
              Reader.pending, hout2]
            simp [hsrc]
            refine ⟨⟨h1, ?_⟩, ?_⟩
            · intro hne
              rcases h1 with h | h
              · exact absurd h hne
              · exact h.1
            · split_ifs <;> omega
        · subst he
          obtain ⟨c, rest, hcr⟩ : ∃ c rest, src = c :: rest := by
            cases src with
            | nil => simp at hn
            | cons c rest => exact ⟨c, rest, rfl⟩
          have hn0 : 0 < n := by
            have := hP c rest (by simpa using hlen c)
            rw [← hcr, hres] at this
            exact this
          have hn1 : n ≠ 0 := by omega
          have hsplit : src.flatMap t.emit
              = (src.take n).flatMap t.emit ++ (src.drop n).flatMap t.emit := by
            rw [← List.flatMap_append, List.take_append_drop]
          have hlenD : (src.drop n).length + n = src.length := by
            rw [List.length_drop]; omega
          simp only [Reader.pass, charmap.Transform, hres, Reader.Inv, Reader.measure,
            Reader.pending]
          simp [hgo, hn1, hsplit, hout, List.flatMap_append]
          refine ⟨h1, ?_⟩
          split_ifs <;> omega
      · have hsrc : src = [] := by
          by_contra h; exact hgo (Or.inl h)
        have herr : err = none := by
          by_contra h; exact hgo (Or.inr h)
        subst hsrc; subst herr
        by_cases hr : rr = []
        · subst hr
          simp [Reader.pass, Reader.fill, Reader.Inv, Reader.measure, Reader.pending]
        · have hpos : 0 < rr.length := List.length_pos.mpr hr
          have hsplit : rr.flatMap t.emit
              = (rr.take defaultBufSize).flatMap t.emit ++ (rr.drop defaultBufSize).flatMap t.emit := by
            rw [← List.flatMap_append, List.take_append_drop]
          simp only [Reader.pass, Reader.fill, Reader.Inv, Reader.measure, Reader.pending]
          simp [hr, hsplit, List.flatMap_append]
          simp only [defaultBufSize] at *
          omega
  · by_cases htc : tc = true
    · subst htc
      obtain ⟨he, hs⟩ := h2 rfl
      subst he; subst hs
      have hr : rr = [] := by simpa using h1
      subst hr
      simp [Reader.pass, Reader.pending, hdst]
    · have htc2 : tc = false := by simpa using htc
      subst htc2
      simp [Reader.pass, Reader.Inv, Reader.measure, Reader.pending, hdst]
      exact h1

theorem readLoop_spec (fuel : Nat) : ∀ r : Reader, r.Inv →
    (∀ c, (r.t.emit c).length ≤ defaultBufSize) → r.measure < fuel →
    readLoop fuel r = (r.pending, some GoError.EOF) := by
  induction fuel with
  | zero => intro r _ _ h; omega
  | succ fuel ih =>
    intro r hinv hlen hm
    have hp := pass_spec r hinv hlen
    rw [readLoop]
    cases hpass : r.pass with
    | again r1 =>
      rw [hpass] at hp
      obtain ⟨hi, ht, hlt, hpe⟩ := hp
      simp only
      rw [ih r1 hi (by rw [ht]; exact hlen) (by omega), hpe]
    | ret out e r1 =>
      rw [hpass] at hp
      cases e with
      | none =>
        obtain ⟨hi, ht, hlt, hpe⟩ := hp
        simp only
        rw [ih r1 hi (by rw [ht]; exact hlen) (by omega), hpe]
      | some e =>
        obtain ⟨he, ho⟩ := hp
        simp only [he, ho]

/-- Reading a charmap transform reader to its end gives the per-byte transcoding. -/
theorem ReadAll_NewReader (t : Charmap) (x : List Byte)
    (hlen : ∀ c, (t.emit c).length ≤ defaultBufSize) :
    ioutil.ReadAll (NewReader x t) = (x.flatMap t.emit, none) := by
  have h := readLoop_spec (4 * (x.length + 0) + 5) (NewReader x t)
    (by simp [Reader.Inv, NewReader]) (by simpa [NewReader] using hlen)
    (by simp [Reader.measure, NewReader])
  simp only [ioutil.ReadAll, NewReader, List.length_nil] at h ⊢
  rw [h]
  simp [Reader.pending]

/-! ## UTF-8 encodings and replacement -/

set_option maxRecDepth 100000 in
theorem first_facts : ∀ b : Byte, utf8.RuneSelf ≤ b.val → utf8.first b ≠ utf8.xx →
    0xC0 ≤ b.val ∧ 2 ≤ utf8.first b % 8 ∧ utf8.first b % 8 ≤ 4 ∧
    utf8.locb ≤ (utf8.acceptRanges (utf8.first b / 16)).1 ∧
    (utf8.acceptRanges (utf8.first b / 16)).2 ≤ utf8.hicb := by decide

theorem isRune_cons {h : Byte} {t : List Byte} (hc : utf8.isRune (h :: t) = true) :
    utf8.isCont h = false ∧ (∀ v ∈ t, utf8.isCont v = true) ∧
      t.length + 1 = utf8.lenOf h := by
  by_cases hb : h.val < utf8.RuneSelf
  · have ht : t = [] := by simpa [utf8.isRune, hb] using hc
    subst ht
    refine ⟨?_, by simp, by simp [utf8.lenOf, hb]⟩
    simp only [utf8.RuneSelf] at hb
    simp [utf8.isCont, utf8.locb]; omega
  · simp only [utf8.isRune, hb, if_false, Bool.and_eq_true, decide_eq_true_eq] at hc
    obtain ⟨⟨hx, hl⟩, hm⟩ := hc
    have hf := first_facts h (by omega) hx
    refine ⟨?_, ?_, by simp [utf8.lenOf, hb, hl]⟩
    · simp only [utf8.isCont, utf8.hicb]
      simp; omega
    · cases t with
      | nil => simp at hm
      | cons c1 t1 =>
        simp only [Bool.and_eq_true, decide_eq_true_eq, List.all_eq_true] at hm
        intro v hv
        rcases List.mem_cons.mp hv with h1 | h1
        · subst h1
          simp only [utf8.isCont, Bool.and_eq_true, decide_eq_true_eq]
          omega
        · exact hm.2 v h1

theorem isRune_ne_nil {c : List Byte} (hc : utf8.isRune c = true) : c ≠ [] := by
  intro h; subst h; simp [utf8.isRune] at hc

theorem validFrom_zero (lo hi : Nat) (l : List Byte) :
    utf8.validFrom 0 lo hi l = utf8.validFrom 0 0 0 l := by
  cases l <;> rfl

theorem validFrom_cont (t : List Byte) (rest : List Byte) :
    ∀ lo hi : Nat, utf8.locb ≤ lo → hi ≤ utf8.hicb →
      (∀ v ∈ t.head?, lo ≤ v.val ∧ v.val ≤ hi) →
      (∀ v ∈ t.tail, utf8.isCont v = true) →
      utf8.validFrom t.length lo hi (t ++ rest) = utf8.validFrom 0 0 0 rest := by
  induction t with
  | nil => intro lo hi _ _ _ _; exact validFrom_zero lo hi rest
  | cons c t ih =>
    intro lo hi hlo hhi hhead htail
    have hc := hhead c (by simp)
    have hnot : ¬ (c.val < lo ∨ hi < c.val) := by omega
    simp only [List.length_cons, List.cons_append, utf8.validFrom, hnot, if_false]
    apply ih utf8.locb utf8.hicb (le_refl _) (le_refl _)
    · intro v hv
      have hv2 : v ∈ t := by
        cases t with
        | nil => simp at hv
        | cons a t => simp at hv; subst hv; simp
      have := htail v (by simpa using hv2)
      simpa [utf8.isCont] using this
    · intro v hv
      exact htail v (by simpa using List.mem_of_mem_tail hv)

theorem Valid_isRune_append {c : List Byte} (hc : utf8.isRune c = true) (rest : List Byte) :
    utf8.Valid (c ++ rest) = utf8.Valid rest := by
  cases c with
  | nil => simp [utf8.isRune] at hc
  | cons b t =>
    by_cases hb : b.val < utf8.RuneSelf
    · have ht : t = [] := by simpa [utf8.isRune, hb] using hc
      subst ht
      simp [utf8.Valid, utf8.validFrom, hb]
    · have hc0 := hc
      simp only [utf8.isRune, hb, if_false, Bool.and_eq_true, decide_eq_true_eq] at hc
      obtain ⟨⟨hx, hl⟩, hm⟩ := hc
      have hf := first_facts b (by omega) hx
      have hcont := (isRune_cons hc0).2.1
      have hsz : utf8.first b % 8 - 1 = t.length := by omega
      simp only [utf8.Valid, List.cons_append, utf8.validFrom, hb, hx, if_false, hsz]
      apply validFrom_cont t rest _ _ hf.2.2.2.1 hf.2.2.2.2
      · intro v hv
        cases t with
        | nil => simp at hv
        | cons c1 t1 =>
          simp only [Bool.and_eq_true, decide_eq_true_eq] at hm
          simp at hv; subst hv
          exact ⟨hm.1.1, hm.1.2⟩
      · intro v hv
        exact hcont v (List.mem_of_mem_tail hv)

theorem Valid_flatten (cs : List (List Byte)) (h : ∀ c ∈ cs, utf8.isRune c = true) :
    utf8.Valid cs.flatten = true := by
  induction cs with
  | nil => simp [utf8.Valid, utf8.validFrom]
  | cons c cs ih =>
    rw [List.flatten_cons, Valid_isRune_append (h c (by simp))]
    exact ih (fun c hc => h c (by simp [hc]))

theorem replaceScan_skip (old new : List Byte) (t rest : List Byte) :
    strings.replaceScan old new t.length (t ++ rest) = strings.replaceScan old new 0 rest := by
  induction t with
  | nil => cases rest <;> simp [strings.replaceScan]
  | cons c t ih => simpa [strings.replaceScan] using ih

theorem replaceScan_zero_nil (old new : List Byte) (k : Nat) :
    strings.replaceScan old new k [] = [] := by
  cases k <;> rfl

theorem replaceScan_cont (h : Byte) (ot new : List Byte) (hh : utf8.isCont h = false)
    (t rest : List Byte) (ht : ∀ v ∈ t, utf8.isCont v = true) :
    strings.replaceScan (h :: ot) new 0 (t ++ rest)
      = t ++ strings.replaceScan (h :: ot) new 0 rest := by
  induction t with
  | nil => simp
  | cons c t ih =>
    have hc : utf8.isCont c = true := ht c (by simp)
    have hne : ¬ (h = c) := by
      intro he; subst he; rw [hh] at hc; exact Bool.false_ne_true hc
    have hp : (h :: ot).isPrefixOf (c :: (t ++ rest)) = false := by
      simp [List.isPrefixOf, hne]
    rw [List.cons_append, strings.replaceScan, hp, if_neg Bool.false_ne_true,
      ih (fun v hv => ht v (by simp [hv]))]
    rfl

theorem isPrefixOf_rune {old c : List Byte} (ho : utf8.isRune old = true)
    (hc : utf8.isRune c = true) (rest : List Byte) :
    old.isPrefixOf (c ++ rest) = true ↔ c = old := by
  constructor
  · intro hp
    have hp2 : old <+: c ++ rest := List.isPrefixOf_iff_prefix.mp hp
    cases old with
    | nil => simp [utf8.isRune] at ho
    | cons h ot =>
      cases c with
      | nil => simp [utf8.isRune] at hc
      | cons h2 t =>
        have ho2 := (isRune_cons ho).2.2
        have hc2 := (isRune_cons hc).2.2
        rw [List.cons_append, List.cons_prefix_cons] at hp2
        obtain ⟨hh, htl⟩ := hp2
        subst hh
        have hlen : ot.length = t.length := by omega
        have h3 : ot <+: t := by
          rw [List.prefix_iff_eq_take] at htl ⊢
          rw [htl, hlen]; simp
        have := h3.eq_of_length hlen
        rw [this]
  · intro h; subst h
    exact List.isPrefixOf_iff_prefix.mpr (List.prefix_append _ _)

theorem replaceScan_flatten (old new : List Byte) (ho : utf8.isRune old = true)
    (cs : List (List Byte)) (hcs : ∀ c ∈ cs, utf8.isRune c = true) :
    strings.replaceScan old new 0 cs.flatten = (cs.map (substChar old new)).flatten := by
  induction cs with
  | nil => simp [strings.replaceScan]
  | cons c cs ih =>
    have hc := hcs c (by simp)
    have ih2 := ih (fun c hc => hcs c (by simp [hc]))
    have hpre := isPrefixOf_rune ho hc cs.flatten
    cases hcc : c with
    | nil => subst hcc; simp [utf8.isRune] at hc
    | cons h t =>
      subst hcc
      cases hoo : old with
      | nil => subst hoo; simp [utf8.isRune] at ho
      | cons oh ot =>
        subst hoo
        simp only [List.flatten_cons, List.map_cons, List.cons_append]
        rw [strings.replaceScan]
        by_cases heq : h :: t = oh :: ot
        · have hp : (oh :: ot).isPrefixOf (h :: (t ++ cs.flatten)) = true := by
            rw [← List.cons_append]; exact hpre.mpr heq
          rw [if_pos hp]
          have hlen : (oh :: ot).length - 1 = t.length := by rw [← heq]; simp
          rw [hlen, replaceScan_skip, ih2]
          simp [substChar, heq]
        · have hp : ¬ ((oh :: ot).isPrefixOf (h :: (t ++ cs.flatten)) = true) := by
            rw [← List.cons_append]; intro hp; exact heq (hpre.mp hp)
          rw [if_neg hp]
          rw [replaceScan_cont oh ot new (isRune_cons ho).1 t _ (isRune_cons hc).2.1, ih2]
          simp [substChar, heq]

theorem ReplaceAll_flatten (old new : List Byte) (ho : utf8.isRune old = true)
    (cs : List (List Byte)) (hcs : ∀ c ∈ cs, utf8.isRune c = true) :
    strings.ReplaceAll cs.flatten old new = (cs.map (substChar old new)).flatten := by
  unfold strings.ReplaceAll
  by_cases h : old = new
  · subst h
    have : cs.map (substChar old old) = cs := by
      conv_rhs => rw [← List.map_id cs]
      apply List.map_congr_left
      intro c _
      simp only [substChar, id]
      split_ifs with h
      · exact h.symm
      · rfl
    rw [if_pos rfl, this]
  · rw [if_neg h, if_neg (isRune_ne_nil ho)]
    exact replaceScan_flatten old new ho cs hcs

set_option maxRecDepth 1000000 in
theorem table_isRune : ∀ v ∈ KamenickyDecoder.table,
    utf8.isRune (goString v.1) = true ∧ utf8.isRune (goString v.2) = true := by decide

set_option maxRecDepth 1000000 in
theorem cp437_emit : ∀ b : Byte,
    charmap.CodePage437.emit b = cp437Char b ∧ utf8.isRune (cp437Char b) = true := by decide

set_option maxRecDepth 1000000 in
theorem win1250_emit : ∀ b : Byte,
    charmap.Windows1250.emit b = win1250Char b ∧ utf8.isRune (win1250Char b) = true := by decide

/-! ## Code points and their encodings -/

theorem ofNat_eq_iff (a b : Nat) : ((Fin.ofNat a : Fin 256) = Fin.ofNat b) ↔ a % 256 = b % 256 := by
  constructor
  · intro h
    have := congrArg Fin.val h
    simpa [Fin.ofNat] using this
  · intro h
    apply Fin.ext
    simpa [Fin.ofNat] using h

theorem encodeRune_of_lt (r : Nat) (hr : r < 0xD800) :
    utf8.EncodeRune r =
      if r ≤ 0x7F then [Fin.ofNat r]
      else if r ≤ 0x7FF then [Fin.ofNat (0xC0 + r / 64), Fin.ofNat (0x80 + r % 64)]
      else [Fin.ofNat (0xE0 + r / 4096), Fin.ofNat (0x80 + r / 64 % 64),
        Fin.ofNat (0x80 + r % 64)] := by
  unfold utf8.EncodeRune
  simp only [utf8.rune1Max, utf8.rune2Max, utf8.rune3Max, utf8.MaxRune, utf8.surrogateMin,
    utf8.surrogateMax, utf8.RuneError]
  have h1 : ¬ (r > 0x10FFFF ∨ 0xD800 ≤ r ∧ r ≤ 0xDFFF) := by omega
  have h2 : (r > 0x10FFFF ∨ 0xD800 ≤ r ∧ r ≤ 0xDFFF ∨ r ≤ 0xFFFF) := by omega
  simp only [h1, h2, if_true, if_false]

theorem encodeRune_injective (r s : Nat) (hr : r < 0xD800) (hs : s < 0xD800)
    (h : utf8.EncodeRune r = utf8.EncodeRune s) : r = s := by
  rw [encodeRune_of_lt r hr, encodeRune_of_lt s hs] at h
  split_ifs at h <;>
    simp only [List.cons.injEq, ofNat_eq_iff, and_true, List.cons_ne_nil, and_false,
      List.nil_eq, reduceCtorEq] at h <;>
    omega

theorem encodeRune_length (r : Nat) (hr : r < 0xD800) :
    1 ≤ (utf8.EncodeRune r).length ∧ (utf8.EncodeRune r).length ≤ 3 ∧
      (0x80 ≤ r → 2 ≤ (utf8.EncodeRune r).length) := by
  rw [encodeRune_of_lt r hr]
  split_ifs <;> simp
  all_goals omega

theorem goString_single (s : String) (h : s.data.length = 1) :
    goString s = utf8.EncodeRune (runeOf s) := by
  unfold goString runeOf
  cases hd : s.data with
  | nil => rw [hd] at h; simp at h
  | cons c t =>
    rw [hd] at h
    have ht : t = [] := by
      simp only [List.length_cons] at h
      exact List.length_eq_zero.mp (by omega)
    subst ht
    simp

theorem tableRune_lt (high : List Nat) (hlen : high.length = 128)
    (hh : ∀ r ∈ high, 0x80 ≤ r ∧ r < 0xD800) (c : Byte) :
    tableRune high c < 0xD800 ∧ (0x80 ≤ c.val → 0x80 ≤ tableRune high c ∧
      tableRune high c ∈ high) ∧ (c.val < 0x80 → tableRune high c = c.val) := by
  unfold tableRune
  by_cases hc : c.val < 0x80
  · rw [if_pos hc]
    exact ⟨by omega, fun h => by omega, fun _ => rfl⟩
  · have hi : c.val - 0x80 < high.length := by have := c.isLt; omega
    have hget : high.getD (c.val - 0x80) utf8.RuneError = high[c.val - 0x80] := by
      rw [List.getD_eq_getElem _ _ hi]
    have hm : high[c.val - 0x80] ∈ high := List.getElem_mem _
    rw [if_neg hc, hget]
    exact ⟨(hh _ hm).2, fun _ => ⟨(hh _ hm).1, hm⟩, fun h => absurd h hc⟩

theorem tableRune_injective (high : List Nat) (hnd : high.Nodup) (hlen : high.length = 128)
    (hh : ∀ r ∈ high, 0x80 ≤ r ∧ r < 0xD800) (a b : Byte)
    (h : tableRune high a = tableRune high b) : a = b := by
  have ha := tableRune_lt high hlen hh a
  have hb := tableRune_lt high hlen hh b
  apply Fin.ext
  by_cases hca : a.val < 0x80
  · by_cases hcb : b.val < 0x80
    · rw [ha.2.2 hca, hb.2.2 hcb] at h; exact h
    · have := (hb.2.1 (by omega)).1
      rw [← h, ha.2.2 hca] at this
      omega
  · by_cases hcb : b.val < 0x80
    · have := (ha.2.1 (by omega)).1
      rw [h, hb.2.2 hcb] at this
      omega
    · have hia : a.val - 0x80 < high.length := by have := a.isLt; omega
      have hib : b.val - 0x80 < high.length := by have := b.isLt; omega
      unfold tableRune at h
      simp only [hca, hcb, if_false] at h
      rw [List.getD_eq_getElem _ _ hia, List.getD_eq_getElem _ _ hib] at h
      have := (List.Nodup.getElem_inj_iff hnd).mp h
      omega

theorem exists_byte_of_mem_take (high : List Nat) (hlen : high.length = 128) (r : Nat)
    (h : r ∈ high.take 64) :
    ∃ b : Byte, 0x80 ≤ b.val ∧ b.val < 0xC0 ∧ tableRune high b = r := by
  obtain ⟨i, hi, hget⟩ := List.mem_iff_getElem.mp h
  have hi64 : i < 64 := by
    rw [List.length_take] at hi
    omega
  refine ⟨⟨0x80 + i, by omega⟩, by simp, by simp; omega, ?_⟩
  have hil : i < high.length := by omega
  unfold tableRune
  have hnot : ¬ (0x80 + i < 0x80) := by omega
  simp only [hnot, if_false, Nat.add_sub_cancel_left]
  rw [List.getD_eq_getElem _ _ hil, ← hget, List.getElem_take]

/-! ## Finite facts about the tables -/

set_option maxRecDepth 1000000 in
theorem codePage437High_facts :
    codePage437High.Nodup ∧ codePage437High.length = 128 ∧
      ∀ r ∈ codePage437High, 0x80 ≤ r ∧ r < 0xD800 := by decide

set_option maxRecDepth 1000000 in
theorem table_rune_facts : ∀ v ∈ KamenickyDecoder.table,
    v.1.data.length = 1 ∧ v.2.data.length = 1 ∧
    runeOf v.1 ∉ codePage437High ∧ 0x80 ≤ runeOf v.1 ∧ runeOf v.1 < 0xD800 ∧
    0x80 ≤ runeOf v.2 ∧ runeOf v.2 < 0xD800 ∧
    runeOf v.2 ∈ codePage437High.take 64 := by
  decide

set_option maxRecDepth 1000000 in
theorem table_disjoint : ∀ v ∈ KamenickyDecoder.table, ∀ w ∈ KamenickyDecoder.table,
    goString v.1 ≠ goString w.2 := by decide

set_option maxRecDepth 1000000 in
theorem table_sources_nodup :
    (KamenickyDecoder.table.map (fun v => goString v.2)).Nodup := by decide

set_option maxRecDepth 1000000 in
theorem table_targets_nodup :
    (KamenickyDecoder.table.map (fun v => goString v.1)).Nodup := by decide

set_option maxRecDepth 1000000 in
theorem table_scalars : ∀ v ∈ KamenickyDecoder.table,
    v.1.length = 1 ∧ v.2.length = 1 := by decide

set_option maxRecDepth 1000000 in
theorem win1250Char_length : ∀ b : Byte,
    1 ≤ (win1250Char b).length ∧ (win1250Char b).length ≤ 3 := by decide

/-! ## The single pass on one character -/

theorem singlePassChar_cases (table : List (String × String)) (c : List Byte) :
    (∃ v ∈ table, goString v.2 = c ∧ singlePassChar table c = goString v.1) ∨
    ((∀ v ∈ table, goString v.2 ≠ c) ∧ singlePassChar table c = c) := by
  unfold singlePassChar
  cases h : table.find? (fun v => goString v.2 == c) with
  | some v =>
    left
    refine ⟨v, List.mem_of_find?_eq_some h, ?_, rfl⟩
    have := List.find?_some h
    simpa using this
  | none =>
    right
    refine ⟨?_, rfl⟩
    intro v hv
    have := List.find?_eq_none.mp h v hv
    simpa using this

theorem singlePassChar_source (table : List (String × String))
    (hnd : (table.map (fun v => goString v.2)).Nodup) (v : String × String) (hv : v ∈ table) :
    singlePassChar table (goString v.2) = goString v.1 := by
  rcases singlePassChar_cases table (goString v.2) with ⟨w, hw, hs, hr⟩ | ⟨hn, -⟩
  · have : w = v := List.inj_on_of_nodup_map hnd hw hv hs
    rw [hr, this]
  · exact absurd rfl (hn v hv)

theorem kamenickyChar_eq (b : Byte) :
    kamenickyChar b = singlePassChar KamenickyDecoder.table (cp437Char b) := rfl

theorem substAll_fixed (table : List (String × String)) (c : List Byte)
    (h : ∀ w ∈ table, c ≠ goString w.2) : substAll table c = c := by
  induction table with
  | nil => rfl
  | cons v table ih =>
    have hv : c ≠ goString v.2 := h v (by simp)
    simp only [substAll, List.foldl_cons, substChar, hv, if_false]
    exact ih (fun w hw => h w (by simp [hw]))

theorem substAll_eq_singlePassChar (table : List (String × String))
    (h : ∀ v ∈ table, ∀ w ∈ table, goString v.1 ≠ goString w.2) (c : List Byte) :
    substAll table c = singlePassChar table c := by
  induction table with
  | nil => rfl
  | cons v table ih =>
    by_cases hc : c = goString v.2
    · have h1 : substAll (v :: table) c = substAll table (goString v.1) := by
        simp [substAll, substChar, hc]
      rw [h1, substAll_fixed table _ (fun w hw => h v (by simp) w (by simp [hw]))]
      simp [singlePassChar, hc]
    · have h1 : substAll (v :: table) c = substAll table c := by
        simp [substAll, substChar, hc]
      have hne : (goString v.2 == c) = false := by
        simpa using fun h => hc h.symm
      rw [h1, ih (fun a ha w hw => h a (by simp [ha]) w (by simp [hw]))]
      simp [singlePassChar, List.find?_cons, hne]

theorem substAll_cp437 (b : Byte) :
    substAll KamenickyDecoder.table (cp437Char b) = kamenickyChar b := by
  rw [kamenickyChar_eq]
  exact substAll_eq_singlePassChar _ table_disjoint _

/-! ## The code-page-437 characters and the characters `K(b)` -/

theorem cp437Char_ascii (b : Byte) (hb : b.val < 0x80) : cp437Char b = [b] := by
  have h := (cp437_emit b).1
  rw [← h]
  simp [Charmap.emit, CodePage437, utf8.RuneSelf, hb]

theorem cp437Char_injective (a b : Byte) (h : cp437Char a = cp437Char b) : a = b := by
  obtain ⟨hnd, hlen, hh⟩ := codePage437High_facts
  unfold cp437Char at h
  exact tableRune_injective _ hnd hlen hh a b
    (encodeRune_injective _ _ (tableRune_lt _ hlen hh a).1 (tableRune_lt _ hlen hh b).1 h)

theorem table_source_eq (v : String × String) (hv : v ∈ KamenickyDecoder.table) :
    goString v.2 = utf8.EncodeRune (runeOf v.2) ∧
      goString v.1 = utf8.EncodeRune (runeOf v.1) :=
  ⟨goString_single _ (table_rune_facts v hv).2.1, goString_single _ (table_rune_facts v hv).1⟩

theorem table_sources (v : String × String) (hv : v ∈ KamenickyDecoder.table) :
    ∃ b : Byte, 0x80 ≤ b.val ∧ b.val < 0xC0 ∧ cp437Char b = goString v.2 ∧
      ∀ b1 : Byte, cp437Char b1 = goString v.2 → b1 = b := by
  obtain ⟨b, h1, h2, h3⟩ := exists_byte_of_mem_take _ codePage437High_facts.2.1 _
    (table_rune_facts v hv).2.2.2.2.2.2.2
  have hc : cp437Char b = goString v.2 := by
    rw [(table_source_eq v hv).1, cp437Char, h3]
  exact ⟨b, h1, h2, hc, fun b1 hb1 => cp437Char_injective b1 b (by rw [hb1, hc])⟩

theorem target_ne_cp437Char (v : String × String) (hv : v ∈ KamenickyDecoder.table)
    (b : Byte) : goString v.1 ≠ cp437Char b := by
  obtain ⟨hnd, hlen, hh⟩ := codePage437High_facts
  have hf := table_rune_facts v hv
  intro h
  rw [(table_source_eq v hv).2, cp437Char] at h
  have hr := encodeRune_injective _ _ hf.2.2.2.2.1 (tableRune_lt _ hlen hh b).1 h
  have hb := tableRune_lt _ hlen hh b
  by_cases hc : b.val < 0x80
  · have := hb.2.2 hc
    have := hf.2.2.2.1
    omega
  · exact hf.2.2.1 (by rw [hr]; exact (hb.2.1 (by omega)).2)

theorem kamenickyChar_facts : ∀ b : Byte,
    utf8.isRune (kamenickyChar b) = true ∧ (b.val < 0x80 → kamenickyChar b = [b]) ∧
    (∀ v ∈ KamenickyDecoder.table, cp437Char b = goString v.2 →
      0x80 ≤ b.val ∧ b.val < 0xC0 ∧ kamenickyChar b = goString v.1) := by
  intro b
  refine ⟨?_, ?_, ?_⟩
  · rw [kamenickyChar_eq]
    rcases singlePassChar_cases KamenickyDecoder.table (cp437Char b) with
      ⟨v, hv, -, hr⟩ | ⟨-, hr⟩
    · rw [hr]; exact (table_isRune v hv).1
    · rw [hr]; exact (cp437_emit b).2
  · intro hb
    rw [kamenickyChar_eq]
    rcases singlePassChar_cases KamenickyDecoder.table (cp437Char b) with
      ⟨v, hv, hs, -⟩ | ⟨-, hr⟩
    · exfalso
      obtain ⟨b0, h0, -, hc0, huniq⟩ := table_sources v hv
      have hbb : b.val = b0.val := by rw [huniq b hs.symm]
      omega
    · rw [hr]; exact cp437Char_ascii b hb
  · intro v hv hs
    obtain ⟨b0, h0, h1, -, huniq⟩ := table_sources v hv
    have hb0 := huniq b hs
    subst hb0
    refine ⟨h0, h1, ?_⟩
    rw [kamenickyChar_eq, hs]
    exact singlePassChar_source _ table_sources_nodup v hv

theorem kamenickyChar_injective (a b : Byte) (h : kamenickyChar a = kamenickyChar b) :
    a = b := by
  rw [kamenickyChar_eq, kamenickyChar_eq] at h
  rcases singlePassChar_cases KamenickyDecoder.table (cp437Char a) with
    ⟨v, hv, hsa, hra⟩ | ⟨-, hra⟩ <;>
  rcases singlePassChar_cases KamenickyDecoder.table (cp437Char b) with
    ⟨w, hw, hsb, hrb⟩ | ⟨-, hrb⟩
  · rw [hra, hrb] at h
    have hvw : v = w := List.inj_on_of_nodup_map table_targets_nodup hv hw h
    subst hvw
    exact cp437Char_injective a b (by rw [← hsa, ← hsb])
  · rw [hra, hrb] at h
    exact absurd h (target_ne_cp437Char v hv b)
  · rw [hra, hrb] at h
    exact absurd h.symm (target_ne_cp437Char w hw a)
  · rw [hra, hrb] at h
    exact cp437Char_injective a b h

theorem char_lengths (b : Byte) :
    1 ≤ (kamenickyChar b).length ∧ (kamenickyChar b).length ≤ 3 ∧
    1 ≤ (win1250Char b).length ∧ (win1250Char b).length ≤ 3 := by
  obtain ⟨hnd, hlen, hh⟩ := codePage437High_facts
  refine ⟨?_, ?_, (win1250Char_length b).1, (win1250Char_length b).2⟩
  · rw [kamenickyChar_eq]
    rcases singlePassChar_cases KamenickyDecoder.table (cp437Char b) with
      ⟨v, hv, -, hr⟩ | ⟨-, hr⟩
    · rw [hr, (table_source_eq v hv).2]
      exact (encodeRune_length _ (table_rune_facts v hv).2.2.2.2.1).1
    · rw [hr, cp437Char]
      exact (encodeRune_length _ (tableRune_lt _ hlen hh b).1).1
  · rw [kamenickyChar_eq]
    rcases singlePassChar_cases KamenickyDecoder.table (cp437Char b) with
      ⟨v, hv, -, hr⟩ | ⟨-, hr⟩
    · rw [hr, (table_source_eq v hv).2]
      exact (encodeRune_length _ (table_rune_facts v hv).2.2.2.2.1).2.1
    · rw [hr, cp437Char]
      exact (encodeRune_length _ (tableRune_lt _ hlen hh b).1).2.1


/-! ## The decoders on input that is not well-formed UTF-8 -/

theorem encodeRune_length_le (r : Nat) : (utf8.EncodeRune r).length ≤ 4 := by
  unfold utf8.EncodeRune
  split_ifs <;> simp

theorem emit_length_le (t : Charmap) (h : ∀ c, (t.emit c).length ≤ 4) :
    ∀ c, (t.emit c).length ≤ defaultBufSize := by
  intro c
  have := h c
  simp only [defaultBufSize]
  omega

theorem cp437_emit_length (c : Byte) : (CodePage437.emit c).length ≤ defaultBufSize := by
  rw [(cp437_emit c).1, cp437Char]
  have := encodeRune_length_le (tableRune codePage437High c)
  simp only [defaultBufSize]; omega

theorem win1250_emit_length (c : Byte) : (Windows1250.emit c).length ≤ defaultBufSize := by
  rw [(win1250_emit c).1, win1250Char]
  have := encodeRune_length_le (tableRune windows1250High c)
  simp only [defaultBufSize]; omega

theorem substChar_isRune {old new c : List Byte} (hn : utf8.isRune new = true)
    (hc : utf8.isRune c = true) : utf8.isRune (substChar old new c) = true := by
  unfold substChar
  split_ifs
  · exact hn
  · exact hc

theorem substitute_flatten (table : List (String × String))
    (ht : ∀ v ∈ table, utf8.isRune (goString v.1) = true ∧ utf8.isRune (goString v.2) = true) :
    ∀ cs : List (List Byte), (∀ c ∈ cs, utf8.isRune c = true) →
      KamenickyDecoder.substitute table cs.flatten = (cs.map (substAll table)).flatten := by
  induction table with
  | nil =>
    intro cs _
    have hid : substAll [] = id := by funext c; rfl
    simp [KamenickyDecoder.substitute, hid]
  | cons v table ih =>
    intro cs hcs
    have hv := ht v (by simp)
    simp only [KamenickyDecoder.substitute, List.foldl_cons]
    rw [ReplaceAll_flatten _ _ hv.2 cs hcs]
    have := ih (fun w hw => ht w (by simp [hw])) (cs.map (substChar (goString v.2) (goString v.1)))
      (by
        intro c hc
        obtain ⟨c0, hc0, rfl⟩ := List.mem_map.mp hc
        exact substChar_isRune hv.1 (hcs c0 hc0))
    simp only [KamenickyDecoder.substitute] at this
    rw [this, List.map_map]
    congr 1

/-- On input that is not well-formed UTF-8 the Kamenický decoder delivers `K` of each byte. -/
theorem Kamenicky_Decode_of_not_valid (x : List Byte) (h : utf8.Valid x = false) :
    KamenickyDecoder.Decode x = (x.flatMap kamenickyChar, none) := by
  unfold KamenickyDecoder.Decode
  rw [h, if_neg Bool.false_ne_true]
  dsimp only
  rw [ReadAll_NewReader _ _ cp437_emit_length]
  simp only [ne_eq, not_true_eq_false, if_false]
  have hmap : x.flatMap CodePage437.emit = (x.map cp437Char).flatten := by
    rw [List.flatMap_def]
    congr 1
    exact List.map_congr_left (fun b _ => (cp437_emit b).1)
  rw [hmap, substitute_flatten _ table_isRune _
    (by
      intro c hc
      obtain ⟨b, _, rfl⟩ := List.mem_map.mp hc
      exact (cp437_emit b).2)]
  have hk : (x.map cp437Char).map (substAll KamenickyDecoder.table) = x.map kamenickyChar := by
    rw [List.map_map]
    apply List.map_congr_left
    intro b _
    rw [Function.comp_apply]
    exact substAll_cp437 b
  rw [hk, List.flatMap_def]

/-- On input that is not well-formed UTF-8 the Windows-1250 decoder delivers the table
character of each byte. -/
theorem Win1250_Decode_of_not_valid (x : List Byte) (h : utf8.Valid x = false) :
    Win1250Decoder.Decode x = (x.flatMap win1250Char, none) := by
  unfold Win1250Decoder.Decode
  rw [h, if_neg Bool.false_ne_true]
  dsimp only
  rw [ReadAll_NewReader _ _ win1250_emit_length]
  simp only [ne_eq, not_true_eq_false, if_false]
  have hmap : x.map Windows1250.emit = x.map win1250Char :=
    List.map_congr_left (fun b _ => (win1250_emit b).1)
  rw [List.flatMap_def, List.flatMap_def, hmap]


theorem Valid_of_ascii (x : List Byte) (h : ∀ b ∈ x, b.val < 0x80) : utf8.Valid x = true := by
  induction x with
  | nil => rfl
  | cons b x ih =>
    have hb : b.val < utf8.RuneSelf := h b (by simp)
    have := ih (fun c hc => h c (by simp [hc]))
    simpa [utf8.Valid, utf8.validFrom, hb] using this

theorem ascii_of_Valid (x : List Byte) (hv : utf8.Valid x = true)
    (h : ∀ b ∈ x, b.val < 0xC0) : ∀ b ∈ x, b.val < 0x80 := by
  induction x with
  | nil => intro b hb; simp at hb
  | cons c x ih =>
    have hc : c.val < 0xC0 := h c (by simp)
    by_cases hlt : c.val < utf8.RuneSelf
    · have hx : utf8.Valid x = true := by
        simpa [utf8.Valid, utf8.validFrom, hlt] using hv
      intro b hb
      rcases List.mem_cons.mp hb with rfl | hb
      · exact hlt
      · exact ih hx (fun c hc => h c (by simp [hc])) b hb
    · exfalso
      have hxx : utf8.first c = utf8.xx := by
        simp only [utf8.RuneSelf] at hlt
        unfold utf8.first
        rw [if_neg hlt, if_pos (by omega)]
      simp [utf8.Valid, utf8.validFrom, hlt, hxx] at hv

theorem flatMap_kamenickyChar_ascii (x : List Byte) (h : ∀ b ∈ x, b.val < 0x80) :
    x.flatMap kamenickyChar = x := by
  induction x with
  | nil => rfl
  | cons b x ih =>
    rw [List.flatMap_cons, (kamenickyChar_facts b).2.1 (h b (by simp)),
      ih (fun c hc => h c (by simp [hc]))]
    rfl

theorem Valid_flatMap (f : Byte → List Byte) (hf : ∀ b, utf8.isRune (f b) = true)
    (x : List Byte) : utf8.Valid (x.flatMap f) = true := by
  rw [List.flatMap_def]
  apply Valid_flatten
  intro c hc
  obtain ⟨b, _, rfl⟩ := List.mem_map.mp hc
  exact hf b

theorem Decode_of_valid (x : List Byte) (h : utf8.Valid x = true) :
    Win1250Decoder.Decode x = (x, none) ∧ KamenickyDecoder.Decode x = (x, none) := by
  unfold Win1250Decoder.Decode KamenickyDecoder.Decode
  rw [h]
  exact ⟨rfl, rfl⟩

/-! ## Characters of a string, the single pass, and injectivity -/

set_option maxRecDepth 100000 in
theorem first_lt_as : ∀ b : Byte, utf8.RuneSelf ≤ b.val → utf8.first b ≠ utf8.xx →
    utf8.first b < utf8.as := by decide

theorem first_ascii (b : Byte) (hb : b.val < utf8.RuneSelf) : utf8.first b = utf8.as := by
  simp only [utf8.RuneSelf] at hb
  unfold utf8.first
  rw [if_pos hb]

theorem DecodeRuneWidth_isRune_append {c : List Byte} (hc : utf8.isRune c = true)
    (rest : List Byte) : utf8.DecodeRuneWidth (c ++ rest) = c.length := by
  cases c with
  | nil => simp [utf8.isRune] at hc
  | cons b t =>
    by_cases hb : b.val < utf8.RuneSelf
    · have ht : t = [] := by simpa [utf8.isRune, hb] using hc
      subst ht
      simp [utf8.DecodeRuneWidth, first_ascii b hb]
    · have hc0 := hc
      simp only [utf8.isRune, hb, if_false, Bool.and_eq_true, decide_eq_true_eq] at hc
      obtain ⟨⟨hx, hl⟩, hm⟩ := hc
      have hf := first_facts b (by omega) hx
      have hlt := first_lt_as b (by omega) hx
      have hcont := (isRune_cons hc0).2.1
      have hge : ¬ utf8.first b ≥ utf8.as := by omega
      cases t with
      | nil => simp at hm
      | cons c1 t1 =>
        simp only [Bool.and_eq_true, decide_eq_true_eq] at hm
        obtain ⟨⟨ha1, ha2⟩, -⟩ := hm
        have hr1 : ¬ (c1.val < (utf8.acceptRanges (utf8.first b / 16)).1 ∨
            (utf8.acceptRanges (utf8.first b / 16)).2 < c1.val) := by omega
        cases t1 with
        | nil =>
          have hsz : utf8.first b % 8 = 2 := by
            simp only [List.length_cons, List.length_nil] at hl; omega
          simp [utf8.DecodeRuneWidth, hge, hsz, hr1]
        | cons c2 t2 =>
          have h2 := hcont c2 (by simp)
          simp only [utf8.isCont, Bool.and_eq_true, decide_eq_true_eq] at h2
          have hr2 : ¬ (c2.val < utf8.locb ∨ utf8.hicb < c2.val) := by omega
          cases t2 with
          | nil =>
            have hsz : utf8.first b % 8 = 3 := by
              simp only [List.length_cons, List.length_nil] at hl; omega
            simp [utf8.DecodeRuneWidth, hge, hsz, hr1, hr2]
          | cons c3 t3 =>
            have h3 := hcont c3 (by simp)
            simp only [utf8.isCont, Bool.and_eq_true, decide_eq_true_eq] at h3
            have hr3 : ¬ (c3.val < utf8.locb ∨ utf8.hicb < c3.val) := by omega
            have ht3 : t3 = [] := by
              simp only [List.length_cons] at hl
              have : t3.length = 0 := by omega
              exact List.length_eq_zero.mp this
            subst ht3
            have hsz : utf8.first b % 8 = 4 := by
              simp only [List.length_cons, List.length_nil] at hl; omega
            simp [utf8.DecodeRuneWidth, hge, hsz, hr1, hr2, hr3]

theorem runesFrom_nil (fuel : Nat) : utf8.runesFrom fuel [] = [] := by
  cases fuel <;> simp [utf8.runesFrom]

theorem runesFrom_flatten (cs : List (List Byte)) (hcs : ∀ c ∈ cs, utf8.isRune c = true) :
    ∀ fuel : Nat, cs.length ≤ fuel → utf8.runesFrom fuel cs.flatten = cs := by
  induction cs with
  | nil => intro fuel _; exact runesFrom_nil fuel
  | cons c cs ih =>
    intro fuel hfuel
    have hc := hcs c (by simp)
    cases fuel with
    | zero => simp at hfuel
    | succ fuel =>
      have hne : c ++ cs.flatten ≠ [] := by
        intro h
        exact isRune_ne_nil hc (List.append_eq_nil.mp h).1
      rw [List.flatten_cons, utf8.runesFrom, if_neg hne, DecodeRuneWidth_isRune_append hc,
        List.take_left, List.drop_left,
        ih (fun d hd => hcs d (by simp [hd])) fuel (by simpa using hfuel)]

theorem length_le_flatten (cs : List (List Byte)) (hcs : ∀ c ∈ cs, utf8.isRune c = true) :
    cs.length ≤ cs.flatten.length := by
  induction cs with
  | nil => simp
  | cons c cs ih =>
    have hpos : 0 < c.length := List.length_pos.mpr (isRune_ne_nil (hcs c (by simp)))
    have := ih (fun d hd => hcs d (by simp [hd]))
    simp only [List.flatten_cons, List.length_append, List.length_cons]
    omega

theorem runes_flatten (cs : List (List Byte)) (hcs : ∀ c ∈ cs, utf8.isRune c = true) :
    utf8.runes cs.flatten = cs :=
  runesFrom_flatten cs hcs _ (length_le_flatten cs hcs)

theorem validFrom_split : ∀ (k lo hi : Nat) (rest : List Byte),
    utf8.validFrom (k + 1) lo hi rest = true →
    ∃ c1 t r, rest = c1 :: t ++ r ∧ t.length = k ∧ lo ≤ c1.val ∧ c1.val ≤ hi ∧
      (∀ v ∈ t, utf8.isCont v = true) ∧ utf8.validFrom 0 0 0 r = true := by
  intro k
  induction k with
  | zero =>
    intro lo hi rest h
    cases rest with
    | nil => simp [utf8.validFrom] at h
    | cons c1 r =>
      by_cases hr : c1.val < lo ∨ hi < c1.val
      · simp [utf8.validFrom, hr] at h
      · simp only [utf8.validFrom, hr, if_false] at h
        rw [validFrom_zero] at h
        exact ⟨c1, [], r, rfl, rfl, by omega, by omega, by simp, h⟩
  | succ k ih =>
    intro lo hi rest h
    cases rest with
    | nil => simp [utf8.validFrom] at h
    | cons c1 r =>
      by_cases hr : c1.val < lo ∨ hi < c1.val
      · simp [utf8.validFrom, hr] at h
      · simp only [utf8.validFrom, hr, if_false] at h
        obtain ⟨c2, t, r2, hrest, hlen, hlo, hhi, hcont, hv⟩ := ih _ _ r h
        refine ⟨c1, c2 :: t, r2, by rw [hrest]; rfl, by simp [hlen], by omega, by omega, ?_, hv⟩
        intro v hv2
        rcases List.mem_cons.mp hv2 with rfl | hv3
        · simp only [utf8.isCont, Bool.and_eq_true, decide_eq_true_eq]
          exact ⟨hlo, hhi⟩
        · exact hcont v hv3

theorem Valid_runes_exist (n : Nat) : ∀ s : List Byte, s.length = n → utf8.Valid s = true →
    ∃ cs : List (List Byte), (∀ c ∈ cs, utf8.isRune c = true) ∧ cs.flatten = s := by
  induction n using Nat.strong_induction_on with
  | _ n ih =>
    intro s hn hv
    cases s with
    | nil => exact ⟨[], by simp, rfl⟩
    | cons b rest =>
      by_cases hb : b.val < utf8.RuneSelf
      · have hrest : utf8.Valid rest = true := by
          simpa [utf8.Valid, utf8.validFrom, hb] using hv
        obtain ⟨cs, hcs, hfl⟩ := ih rest.length (by simp at hn; omega) rest rfl hrest
        refine ⟨[b] :: cs, ?_, by simp [hfl]⟩
        intro c hc
        rcases List.mem_cons.mp hc with rfl | hc
        · simp [utf8.isRune, hb]
        · exact hcs c hc
      · by_cases hx : utf8.first b = utf8.xx
        · simp [utf8.Valid, utf8.validFrom, hb, hx] at hv
        · have hf := first_facts b (by omega) hx
          obtain ⟨k, hk⟩ : ∃ k, utf8.first b % 8 - 1 = k + 1 := ⟨utf8.first b % 8 - 2, by omega⟩
          simp only [utf8.Valid, utf8.validFrom, hb, hx, if_false, hk] at hv
          obtain ⟨c1, t, r, hrest, hlen, hlo, hhi, hcont, hvr⟩ := validFrom_split _ _ _ rest hv
          obtain ⟨cs, hcs, hfl⟩ := ih r.length
            (by rw [← hn, hrest]; simp; omega) r rfl hvr
          refine ⟨(b :: c1 :: t) :: cs, ?_, by simp [hfl, hrest]⟩
          intro c hc
          rcases List.mem_cons.mp hc with rfl | hc
          · simp only [utf8.isRune, hb, if_false, Bool.and_eq_true, decide_eq_true_eq,
              List.all_eq_true, List.length_cons]
            exact ⟨⟨hx, by omega⟩, ⟨hlo, hhi⟩, hcont⟩
          · exact hcs c hc

theorem flatMap_injective (f : Byte → List Byte) (hf : ∀ b, utf8.isRune (f b) = true)
    (hinj : ∀ a b, f a = f b → a = b) :
    ∀ x y : List Byte, x.flatMap f = y.flatMap f → x = y := by
  intro x
  induction x with
  | nil =>
    intro y h
    cases y with
    | nil => rfl
    | cons b y =>
      exfalso
      rw [List.flatMap_nil, List.flatMap_cons] at h
      exact isRune_ne_nil (hf b) (List.append_eq_nil.mp h.symm).1
  | cons a x ih =>
    intro y h
    cases y with
    | nil =>
      exfalso
      rw [List.flatMap_nil, List.flatMap_cons] at h
      exact isRune_ne_nil (hf a) (List.append_eq_nil.mp h).1
    | cons b y =>
      rw [List.flatMap_cons, List.flatMap_cons] at h
      have hlen : (f a).length = (f b).length := by
        have ha := hf a
        have hb := hf b
        cases hfa : f a with
        | nil => rw [hfa] at ha; simp [utf8.isRune] at ha
        | cons h1 t1 =>
          cases hfb : f b with
          | nil => rw [hfb] at hb; simp [utf8.isRune] at hb
          | cons h2 t2 =>
            rw [hfa, hfb] at h
            rw [hfa] at ha
            rw [hfb] at hb
            have e1 := (isRune_cons ha).2.2
            have e2 := (isRune_cons hb).2.2
            have hh : h1 = h2 := by
              simp only [List.cons_append, List.cons.injEq] at h
              exact h.1
            subst hh
            simp only [List.length_cons]
            omega
      obtain ⟨h1, h2⟩ := List.append_inj h hlen
      rw [hinj a b h1, ih y h2]

theorem length_flatMap_bounds (f : Byte → List Byte)
    (hf : ∀ b, 1 ≤ (f b).length ∧ (f b).length ≤ 3) (x : List Byte) :
    x.length ≤ (x.flatMap f).length ∧ (x.flatMap f).length ≤ 3 * x.length := by
  induction x with
  | nil => simp
  | cons b x ih =>
    have := hf b
    simp only [List.flatMap_cons, List.length_append, List.length_cons]
    omega

theorem RuneCount_flatMap (f : Byte → List Byte) (hf : ∀ b, utf8.isRune (f b) = true)
    (x : List Byte) : utf8.RuneCount (x.flatMap f) = x.length := by
  rw [List.flatMap_def, utf8.RuneCount, runes_flatten]
  · simp
  · intro c hc
    obtain ⟨b, _, rfl⟩ := List.mem_map.mp hc
    exact hf b

theorem Decode_eq_of_valid_or_not (x : List Byte) :
    (utf8.Valid x = true ∧ Win1250Decoder.Decode x = (x, none) ∧
        KamenickyDecoder.Decode x = (x, none)) ∨
    (utf8.Valid x = false ∧ Win1250Decoder.Decode x = (x.flatMap win1250Char, none) ∧
        KamenickyDecoder.Decode x = (x.flatMap kamenickyChar, none)) := by
  cases h : utf8.Valid x with
  | true => exact Or.inl ⟨rfl, Decode_of_valid x h⟩
  | false =>
    exact Or.inr ⟨rfl, Win1250_Decode_of_not_valid x h, Kamenicky_Decode_of_not_valid x h⟩

theorem UTF8Validator_Decode_ok (x y : List Byte) (h : UTF8Validator.Decode x = (y, none)) :
    y = x ∧ utf8.Valid x = true := by
  unfold UTF8Validator.Decode at h
  cases hv : utf8.Valid x with
  | true =>
    rw [hv, if_pos rfl] at h
    exact ⟨(Prod.mk.inj h).1.symm, rfl⟩
  | false =>
    rw [hv, if_neg Bool.false_ne_true] at h
    exact absurd (Prod.mk.inj h).2 (by simp)

/-! ## The claims -/

set_option maxRecDepth 1000000 in
/-- C1: for every pair `(target, source)` of the substitution table and every byte `b`
whose code-page-437 character is `source`, `KamenickyDecoder.Decode` applied to `[b]`
returns the UTF-8 encoding of `target` and no error; every pair has such a byte; and
`[0x88]`, `[0x87]`, `[0x9E]` decode to "ě", "č", "Ř". -/
theorem KamenickyDecoder_Decode_table_pairs :
    (∀ v ∈ KamenickyDecoder.table, ∀ b : Byte, cp437Char b = goString v.2 →
      KamenickyDecoder.Decode [b] = (goString v.1, none)) ∧
    (∀ v ∈ KamenickyDecoder.table, ∃ b : Byte, cp437Char b = goString v.2) ∧
    KamenickyDecoder.Decode [0x88] = (goString "ě", none) ∧
    KamenickyDecoder.Decode [0x87] = (goString "č", none) ∧
    KamenickyDecoder.Decode [0x9E] = (goString "Ř", none) := by
  refine ⟨?_, ?_, by decide, by decide, by decide⟩
  · intro v hv b hs
    obtain ⟨h0, -, hk⟩ := (kamenickyChar_facts b).2.2 v hv hs
    have hnv : utf8.Valid [b] = false := by
      cases hval : utf8.Valid [b] with
      | false => rfl
      | true =>
        have := ascii_of_Valid [b] hval
          (fun c hc => by
            have hcb : c = b := by simpa using hc
            rw [hcb]
            exact ((kamenickyChar_facts b).2.2 v hv hs).2.1) b (by simp)
        omega
    rw [Kamenicky_Decode_of_not_valid [b] hnv]
    simp [hk]
  · intro v hv
    obtain ⟨b, -, -, hc, -⟩ := table_sources v hv
    exact ⟨b, hc⟩

theorem KamenickyDecoder_Decode_table_pairs_witness :
    cp437Char 0x88 = goString "ê" ∧
      KamenickyDecoder.Decode [0x88] = (goString "ě", none) :=
  ⟨by decide,
    KamenickyDecoder_Decode_table_pairs.1 ("ě", "ê") (by simp [KamenickyDecoder.table])
      0x88 (by decide)⟩

/-- C2: for every byte sequence `x` that is not well-formed UTF-8,
`KamenickyDecoder.Decode x` returns, with no error, the concatenation in input order
of `K(x[i])`, and each `K(x[i])` is the encoding of one character. -/
theorem KamenickyDecoder_Decode_not_valid (x : List Byte) (h : utf8.Valid x = false) :
    KamenickyDecoder.Decode x = (x.flatMap kamenickyChar, none) ∧
      ∀ b ∈ x, utf8.isRune (kamenickyChar b) = true :=
  ⟨Kamenicky_Decode_of_not_valid x h, fun b _ => (kamenickyChar_facts b).1⟩

theorem KamenickyDecoder_Decode_not_valid_witness :
    utf8.Valid [0x61, 0x88, 0xB3] = false ∧
      KamenickyDecoder.Decode [0x61, 0x88, 0xB3] = (goString "aě│", none) :=
  ⟨by decide, by
    have h := (KamenickyDecoder_Decode_not_valid [0x61, 0x88, 0xB3] (by decide)).1
    rw [h]; decide⟩

/-- C3: for every well-formed UTF-8 byte sequence `x`, both `Win1250Decoder.Decode x`
and `KamenickyDecoder.Decode x` return `x` itself with no error. -/
theorem Decode_valid_unchanged (x : List Byte) (h : utf8.Valid x = true) :
    Win1250Decoder.Decode x = (x, none) ∧ KamenickyDecoder.Decode x = (x, none) :=
  Decode_of_valid x h

theorem Decode_valid_unchanged_witness :
    utf8.Valid [0xC4, 0x8D, 0x61] = true ∧
      Win1250Decoder.Decode [0xC4, 0x8D, 0x61] = ([0xC4, 0x8D, 0x61], none) ∧
      KamenickyDecoder.Decode [0xC4, 0x8D, 0x61] = ([0xC4, 0x8D, 0x61], none) :=
  ⟨by decide, Decode_valid_unchanged [0xC4, 0x8D, 0x61] (by decide)⟩

/-- C4: for every byte sequence `x`, `UTF8Validator.Decode x` succeeds exactly when
`x` is well-formed UTF-8; when it succeeds it returns `x` unchanged, and when it
fails it returns the empty (nil) slice and the error `ErrInvalidUTF8`. -/
theorem UTF8Validator_Decode_spec (x : List Byte) :
    ((UTF8Validator.Decode x).2 = none ↔ utf8.Valid x = true) ∧
    ((UTF8Validator.Decode x).2 = none → UTF8Validator.Decode x = (x, none)) ∧
    ((UTF8Validator.Decode x).2 ≠ none →
      UTF8Validator.Decode x = ([], some ErrInvalidUTF8)) := by
  unfold UTF8Validator.Decode
  cases h : utf8.Valid x <;> simp

theorem UTF8Validator_Decode_spec_witness :
    UTF8Validator.Decode [0x61, 0xFF] = ([], some ErrInvalidUTF8) ∧
      UTF8Validator.Decode [0xC4, 0x8D] = ([0xC4, 0x8D], none) :=
  ⟨(UTF8Validator_Decode_spec [0x61, 0xFF]).2.2 (by decide),
    (UTF8Validator_Decode_spec [0xC4, 0x8D]).2.1 (by decide)⟩

/-- C5: for every byte sequence `x` that is not well-formed UTF-8,
`Win1250Decoder.Decode x` returns, with no error, the concatenation in input order of
the UTF-8 encodings of the Windows-1250 table character of each byte; the byte `0xE8`
has the table character U+010D, and `[0xE8]` decodes to `[0xC4, 0x8D]`. -/
theorem Win1250Decoder_Decode_not_valid :
    (∀ x : List Byte, utf8.Valid x = false →
      Win1250Decoder.Decode x = (x.flatMap win1250Char, none)) ∧
    charmap.tableRune charmap.windows1250High 0xE8 = 0x10D ∧
    utf8.EncodeRune 0x10D = [0xC4, 0x8D] ∧
    Win1250Decoder.Decode [0xE8] = ([0xC4, 0x8D], none) :=
  ⟨Win1250_Decode_of_not_valid, by decide, by decide, by decide⟩

theorem Win1250Decoder_Decode_not_valid_witness :
    utf8.Valid [0x61, 0xE8, 0x81] = false ∧
      Win1250Decoder.Decode [0x61, 0xE8, 0x81] = ([0x61, 0xC4, 0x8D, 0xEF, 0xBF, 0xBD], none) :=
  ⟨by decide, by
    have h := Win1250Decoder_Decode_not_valid.1 [0x61, 0xE8, 0x81] (by decide)
    rw [h]; decide⟩

/-- C6, as stated, fails: `UTF8Decoder.Decode` succeeds on the byte `0xFF` and returns
it, which is not well-formed UTF-8. -/
theorem UTF8Decoder_Decode_not_valid_output :
    ¬ ((UTF8Decoder.Decode [0xFF]).2 ≠ none ∨
        utf8.Valid (UTF8Decoder.Decode [0xFF]).1 = true) := by
  decide

/-- C6, amended: for `UTF8Validator`, `Win1250Decoder` and `KamenickyDecoder` and every
byte sequence `x`, `Decode x` either fails or returns well-formed UTF-8;
`UTF8Decoder.Decode x` returns `x`, which is well-formed exactly when `x` is. -/
theorem Decode_output_valid (x : List Byte) :
    ((UTF8Validator.Decode x).2 ≠ none ∨ utf8.Valid (UTF8Validator.Decode x).1 = true) ∧
    ((Win1250Decoder.Decode x).2 ≠ none ∨ utf8.Valid (Win1250Decoder.Decode x).1 = true) ∧
    ((KamenickyDecoder.Decode x).2 ≠ none ∨
      utf8.Valid (KamenickyDecoder.Decode x).1 = true) ∧
    (UTF8Decoder.Decode x).1 = x ∧
    utf8.Valid (UTF8Decoder.Decode x).1 = utf8.Valid x := by
  cases h : utf8.Valid x with
  | true =>
    have h2 := Decode_of_valid x h
    refine ⟨Or.inr ?_, Or.inr ?_, Or.inr ?_, rfl, h⟩
    · simp [UTF8Validator.Decode, h]
    · rw [h2.1]; exact h
    · rw [h2.2]; exact h
  | false =>
    refine ⟨Or.inl ?_, Or.inr ?_, Or.inr ?_, rfl, h⟩
    · simp [UTF8Validator.Decode, h]
    · rw [Win1250_Decode_of_not_valid x h]
      exact Valid_flatMap _ (fun b => (win1250_emit b).2) x
    · rw [Kamenicky_Decode_of_not_valid x h]
      exact Valid_flatMap _ (fun b => (kamenickyChar_facts b).1) x

/-- C7: for every byte sequence `x` made only of ASCII bytes and of bytes whose
code-page-437 character is a source of the table, `KamenickyDecoder.Decode x` returns,
with no error, one character per input byte: the byte itself when it is ASCII, the
target of its table entry otherwise. -/
theorem KamenickyDecoder_Decode_ascii_and_sources (x : List Byte)
    (hx : ∀ b ∈ x, b.val < 0x80 ∨
      ∃ v ∈ KamenickyDecoder.table, cp437Char b = goString v.2) :
    KamenickyDecoder.Decode x = (x.flatMap kamenickyChar, none) ∧
    ∀ b ∈ x, utf8.isRune (kamenickyChar b) = true ∧
      (b.val < 0x80 → kamenickyChar b = [b]) ∧
      (∀ v ∈ KamenickyDecoder.table, cp437Char b = goString v.2 →
        kamenickyChar b = goString v.1) := by
  refine ⟨?_, fun b _ => ⟨(kamenickyChar_facts b).1, (kamenickyChar_facts b).2.1,
    fun v hv hs => ((kamenickyChar_facts b).2.2 v hv hs).2.2⟩⟩
  cases h : utf8.Valid x with
  | false => exact Kamenicky_Decode_of_not_valid x h
  | true =>
    have hlt : ∀ b ∈ x, b.val < 0xC0 := by
      intro b hb
      rcases hx b hb with h1 | ⟨v, hv, hs⟩
      · omega
      · exact ((kamenickyChar_facts b).2.2 v hv hs).2.1
    have hascii := ascii_of_Valid x h hlt
    rw [(Decode_of_valid x h).2, flatMap_kamenickyChar_ascii x hascii]

set_option maxRecDepth 1000000 in
theorem KamenickyDecoder_Decode_ascii_and_sources_witness :
    KamenickyDecoder.Decode [0x41, 0x88, 0x62, 0x9E, 0x87] = (goString "AěbŘč", none) := by
  have h := (KamenickyDecoder_Decode_ascii_and_sources [0x41, 0x88, 0x62, 0x9E, 0x87]
    (by decide)).1
  rw [h]; decide

/-- C8, as stated, fails: the table does not have 30 entries. -/
theorem KamenickyDecoder_table_length_ne_30 : ¬ (KamenickyDecoder.table.length = 30) := by
  decide

/-- C8, amended: the substitution table iterated by `KamenickyDecoder.Decode` is a
fixed ordered sequence of exactly 31 `(target, source)` pairs, from `("ě", "ê")` to
`("Ž", "Æ")`. -/
theorem KamenickyDecoder_table_length :
    KamenickyDecoder.table.length = 31 ∧
    KamenickyDecoder.table.head? = some ("ě", "ê") ∧
    KamenickyDecoder.table.getLast? = some ("Ž", "Æ") := by
  decide

/-- C9, as stated, fails: the two bytes `0xC3 0xA9` are well-formed UTF-8, so they are
returned unchanged and not as `K(0xC3) K(0xA9)`. -/
theorem KamenickyDecoder_Decode_valid_not_transcoded :
    KamenickyDecoder.Decode [0xC3, 0xA9] = ([0xC3, 0xA9], none) ∧
    ¬ (KamenickyDecoder.Decode [0xC3, 0xA9]
        = ([0xC3, 0xA9].flatMap kamenickyChar, none)) := by
  decide

/-- C9, amended: for every byte sequence `x` that is not well-formed UTF-8 or holds
only ASCII bytes, `KamenickyDecoder.Decode x` returns the concatenation of `K(x[i])`;
every well-formed UTF-8 `x` is returned unchanged. -/
theorem KamenickyDecoder_Decode_kamenicky_text (x : List Byte) :
    ((utf8.Valid x = false ∨ ∀ b ∈ x, b.val < 0x80) →
      KamenickyDecoder.Decode x = (x.flatMap kamenickyChar, none)) ∧
    (utf8.Valid x = true → KamenickyDecoder.Decode x = (x, none)) := by
  refine ⟨?_, fun h => (Decode_of_valid x h).2⟩
  rintro (h | h)
  · exact Kamenicky_Decode_of_not_valid x h
  · rw [(Decode_of_valid x (Valid_of_ascii x h)).2, flatMap_kamenickyChar_ascii x h]

theorem KamenickyDecoder_Decode_kamenicky_text_witness :
    KamenickyDecoder.Decode [0x50, 0x9E, 0xA1] = (goString "PŘí", none) := by
  have h := (KamenickyDecoder_Decode_kamenicky_text [0x50, 0x9E, 0xA1]).1
    (Or.inl (by decide))
  rw [h]; decide

/-- C10: for every byte sequence `x`, well-formed UTF-8 or not, `UTF8Decoder.Decode x`
returns `x` unchanged with no error. -/
theorem UTF8Decoder_Decode_identity (x : List Byte) : UTF8Decoder.Decode x = (x, none) :=
  rfl

/-- C11: on the empty byte sequence each of the four decoders returns an empty output
and no error. -/
theorem Decode_empty :
    UTF8Decoder.Decode [] = ([], none) ∧ UTF8Validator.Decode [] = ([], none) ∧
    Win1250Decoder.Decode [] = ([], none) ∧ KamenickyDecoder.Decode [] = ([], none) := by
  decide

/-- C12: for every well-formed UTF-8 string `s`, the replacements of the table applied
one after another in table order give the same string as the single pass that maps
each character of `s` through the table once; and no substitution rewrites a target:
every target comes out of the whole sequence of replacements unchanged. -/
theorem KamenickyDecoder_substitute_eq_singlePass :
    (∀ s : List Byte, utf8.Valid s = true →
      KamenickyDecoder.substitute KamenickyDecoder.table s
        = singlePass KamenickyDecoder.table s) ∧
    (∀ v ∈ KamenickyDecoder.table,
      KamenickyDecoder.substitute KamenickyDecoder.table (goString v.1) = goString v.1) := by
  constructor
  · intro s h
    obtain ⟨cs, hcs, rfl⟩ := Valid_runes_exist _ s rfl h
    have hmap : cs.map (substAll KamenickyDecoder.table)
        = cs.map (singlePassChar KamenickyDecoder.table) :=
      List.map_congr_left (fun c _ => substAll_eq_singlePassChar _ table_disjoint c)
    rw [substitute_flatten _ table_isRune cs hcs, singlePass, runes_flatten cs hcs, hmap]
  · intro v hv
    have ht := (table_isRune v hv).1
    have h := substitute_flatten _ table_isRune [goString v.1] (by simpa using ht)
    simp only [List.flatten_cons, List.flatten_nil, List.append_nil, List.map_cons,
      List.map_nil] at h
    rw [h, substAll_fixed _ _ (fun w hw => table_disjoint v hv w hw)]

set_option maxRecDepth 1000000 in
theorem KamenickyDecoder_substitute_eq_singlePass_witness :
    utf8.Valid (goString "aêb⌐ě") = true ∧
      KamenickyDecoder.substitute KamenickyDecoder.table (goString "aêb⌐ě")
        = goString "aěbřě" :=
  ⟨by decide, by
    have h := KamenickyDecoder_substitute_eq_singlePass.1 (goString "aêb⌐ě") (by decide)
    rw [h]; decide⟩

/-- C13: every entry of the substitution table is a pair of strings of exactly one
Unicode scalar value each; every source is the code-page-437 character of exactly one
byte, and that byte is at least `0x80`; the sources are pairwise distinct; and no
target of any entry equals the source of any entry. -/
theorem KamenickyDecoder_table_wellformed :
    (∀ v ∈ KamenickyDecoder.table, v.1.length = 1 ∧ v.2.length = 1 ∧
      utf8.isRune (goString v.1) = true ∧ utf8.isRune (goString v.2) = true) ∧
    (∀ v ∈ KamenickyDecoder.table, ∃ b : Byte, 0x80 ≤ b.val ∧
      cp437Char b = goString v.2 ∧ ∀ b1 : Byte, cp437Char b1 = goString v.2 → b1 = b) ∧
    (KamenickyDecoder.table.map (fun v => goString v.2)).Nodup ∧
    (∀ v ∈ KamenickyDecoder.table, ∀ w ∈ KamenickyDecoder.table,
      goString v.1 ≠ goString w.2) := by
  refine ⟨fun v hv => ⟨(table_scalars v hv).1, (table_scalars v hv).2,
      (table_isRune v hv).1, (table_isRune v hv).2⟩, ?_, table_sources_nodup, table_disjoint⟩
  intro v hv
  obtain ⟨b, hb, -, hc, huniq⟩ := table_sources v hv
  exact ⟨b, hb, hc, huniq⟩

theorem KamenickyDecoder_table_wellformed_witness :
    ∃ b : Byte, 0x80 ≤ b.val ∧ cp437Char b = goString "ê" ∧
      ∀ b1 : Byte, cp437Char b1 = goString "ê" → b1 = b :=
  KamenickyDecoder_table_wellformed.2.1 ("ě", "ê") (by simp [KamenickyDecoder.table])

/-- C14: for each of the four decoders and every byte sequence `x` on which `Decode`
succeeds with output `y`, the byte length of `y` is at least `len(x)` and at most
`3 * len(x)`; and for `Win1250Decoder` and `KamenickyDecoder` on an `x` that is not
well-formed UTF-8, `y` has exactly `len(x)` characters. -/
theorem Decode_length_bounds (x y : List Byte) :
    (UTF8Decoder.Decode x = (y, none) → x.length ≤ y.length ∧ y.length ≤ 3 * x.length) ∧
    (UTF8Validator.Decode x = (y, none) → x.length ≤ y.length ∧ y.length ≤ 3 * x.length) ∧
    (Win1250Decoder.Decode x = (y, none) → x.length ≤ y.length ∧ y.length ≤ 3 * x.length) ∧
    (KamenickyDecoder.Decode x = (y, none) →
      x.length ≤ y.length ∧ y.length ≤ 3 * x.length) ∧
    (utf8.Valid x = false → Win1250Decoder.Decode x = (y, none) →
      utf8.RuneCount y = x.length) ∧
    (utf8.Valid x = false → KamenickyDecoder.Decode x = (y, none) →
      utf8.RuneCount y = x.length) := by
  have hsame : ∀ z : List Byte, z = x → x.length ≤ z.length ∧ z.length ≤ 3 * x.length := by
    intro z hz; subst hz; omega
  have hw := length_flatMap_bounds win1250Char
    (fun b => ⟨(char_lengths b).2.2.1, (char_lengths b).2.2.2⟩) x
  have hk := length_flatMap_bounds kamenickyChar
    (fun b => ⟨(char_lengths b).1, (char_lengths b).2.1⟩) x
  refine ⟨?_, ?_, ?_, ?_, ?_, ?_⟩
  · intro h
    exact hsame y (Prod.mk.inj h).1.symm
  · intro h
    exact hsame y (UTF8Validator_Decode_ok x y h).1
  · intro h
    rcases Decode_eq_of_valid_or_not x with ⟨-, h1, -⟩ | ⟨-, h1, -⟩
    · rw [h1] at h; exact hsame y (Prod.mk.inj h).1.symm
    · rw [h1] at h; rw [← (Prod.mk.inj h).1]; exact hw
  · intro h
    rcases Decode_eq_of_valid_or_not x with ⟨-, -, h1⟩ | ⟨-, -, h1⟩
    · rw [h1] at h; exact hsame y (Prod.mk.inj h).1.symm
    · rw [h1] at h; rw [← (Prod.mk.inj h).1]; exact hk
  · intro hv h
    rw [Win1250_Decode_of_not_valid x hv] at h
    rw [← (Prod.mk.inj h).1]
    exact RuneCount_flatMap _ (fun b => (win1250_emit b).2) x
  · intro hv h
    rw [Kamenicky_Decode_of_not_valid x hv] at h
    rw [← (Prod.mk.inj h).1]
    exact RuneCount_flatMap _ (fun b => (kamenickyChar_facts b).1) x

set_option maxRecDepth 1000000 in
theorem Decode_length_bounds_witness :
    KamenickyDecoder.Decode [0x61, 0x88, 0xB3] = (goString "aě│", none) ∧
      (3 ≤ (goString "aě│").length ∧ (goString "aě│").length ≤ 3 * 3) ∧
      utf8.RuneCount (goString "aě│") = 3 :=
  ⟨by decide,
    (Decode_length_bounds [0x61, 0x88, 0xB3] (goString "aě│")).2.2.2.1 (by decide),
    (Decode_length_bounds [0x61, 0x88, 0xB3] (goString "aě│")).2.2.2.2.2 (by decide)
      (by decide)⟩

/-- C15: each of the four decoders is idempotent: when `Decode x` succeeds with output
`y`, `Decode y` succeeds and returns `y`. -/
theorem Decode_idempotent (x y : List Byte) :
    (UTF8Decoder.Decode x = (y, none) → UTF8Decoder.Decode y = (y, none)) ∧
    (UTF8Validator.Decode x = (y, none) → UTF8Validator.Decode y = (y, none)) ∧
    (Win1250Decoder.Decode x = (y, none) → Win1250Decoder.Decode y = (y, none)) ∧
    (KamenickyDecoder.Decode x = (y, none) → KamenickyDecoder.Decode y = (y, none)) := by
  refine ⟨fun _ => rfl, ?_, ?_, ?_⟩
  · intro h
    obtain ⟨hy, hv⟩ := UTF8Validator_Decode_ok x y h
    subst hy
    exact h
  · intro h
    rcases Decode_eq_of_valid_or_not x with ⟨hv, h1, -⟩ | ⟨hv, h1, -⟩
    · rw [h1] at h
      rw [← (Prod.mk.inj h).1]
      exact h1
    · rw [h1] at h
      rw [← (Prod.mk.inj h).1]
      exact (Decode_of_valid _ (Valid_flatMap _ (fun b => (win1250_emit b).2) x)).1
  · intro h
    rcases Decode_eq_of_valid_or_not x with ⟨hv, -, h1⟩ | ⟨hv, -, h1⟩
    · rw [h1] at h
      rw [← (Prod.mk.inj h).1]
      exact h1
    · rw [h1] at h
      rw [← (Prod.mk.inj h).1]
      exact (Decode_of_valid _ (Valid_flatMap _ (fun b => (kamenickyChar_facts b).1) x)).2

set_option maxRecDepth 1000000 in
theorem Decode_idempotent_witness :
    KamenickyDecoder.Decode [0x50, 0x9E, 0xA1] = (goString "PŘí", none) ∧
      KamenickyDecoder.Decode (goString "PŘí") = (goString "PŘí", none) ∧
      Win1250Decoder.Decode [0x61, 0xE8] = ([0x61, 0xC4, 0x8D], none) ∧
      Win1250Decoder.Decode [0x61, 0xC4, 0x8D] = ([0x61, 0xC4, 0x8D], none) :=
  ⟨by decide,
    (Decode_idempotent [0x50, 0x9E, 0xA1] (goString "PŘí")).2.2.2 (by decide),
    by decide,
    (Decode_idempotent [0x61, 0xE8] [0x61, 0xC4, 0x8D]).2.2.1 (by decide)⟩

/-- C16: `KamenickyDecoder.Decode` is injective on the inputs that are not well-formed
UTF-8: for `x` and `y` both not well-formed, `Decode x = Decode y` implies `x = y`; the
256 byte values decode to 256 distinct characters. -/
theorem KamenickyDecoder_Decode_injective :
    (∀ x y : List Byte, utf8.Valid x = false → utf8.Valid y = false →
      KamenickyDecoder.Decode x = KamenickyDecoder.Decode y → x = y) ∧
    (∀ a b : Byte, kamenickyChar a = kamenickyChar b → a = b) := by
  refine ⟨?_, kamenickyChar_injective⟩
  intro x y hx hy h
  rw [Kamenicky_Decode_of_not_valid x hx, Kamenicky_Decode_of_not_valid y hy] at h
  exact flatMap_injective kamenickyChar (fun b => (kamenickyChar_facts b).1)
    kamenickyChar_injective x y (Prod.mk.inj h).1

set_option maxRecDepth 1000000 in
theorem KamenickyDecoder_Decode_injective_witness :
    utf8.Valid [0x61, 0x88] = false ∧ utf8.Valid [0x61, 0x89] = false ∧
      KamenickyDecoder.Decode [0x61, 0x88] ≠ KamenickyDecoder.Decode [0x61, 0x89] :=
  ⟨by decide, by decide, fun h =>
    absurd (KamenickyDecoder_Decode_injective.1 [0x61, 0x88] [0x61, 0x89]
      (by decide) (by decide) h) (by decide)⟩

/-- C17: `Win1250Decoder.Decode` and `KamenickyDecoder.Decode` never return an error:
for every byte sequence `x` the error is `nil`, and `ioutil.ReadAll` on the transform
reader of either code page returns a `nil` error, so the error branches after it are
not taken. -/
theorem Decode_no_error (x : List Byte) :
    (Win1250Decoder.Decode x).2 = none ∧ (KamenickyDecoder.Decode x).2 = none ∧
    (ioutil.ReadAll (NewReader x Windows1250)).2 = none ∧
    (ioutil.ReadAll (NewReader x CodePage437)).2 = none := by
  refine ⟨?_, ?_, ?_, ?_⟩
  · rcases Decode_eq_of_valid_or_not x with ⟨-, h1, -⟩ | ⟨-, h1, -⟩ <;> rw [h1]
  · rcases Decode_eq_of_valid_or_not x with ⟨-, -, h1⟩ | ⟨-, -, h1⟩ <;> rw [h1]
  · rw [ReadAll_NewReader _ _ win1250_emit_length]
  · rw [ReadAll_NewReader _ _ cp437_emit_length]

end Dbf
